import Mathlib

/-!
Verification development for the `nd_prover` repository: a shallow embedding
of its formula syntax (`syntax.py`), unification with mutable metavariables,
the propositional proof-search engine (`prover.py`), and the façade entry
points (`cli.py`), together with theorems settling the specification claims.

Python's mutable metavariable state is modelled by explicit state passing
(an association list from metavariable ids to bound objects), and potentially
non-terminating recursions (through stored metavariable values) carry an
explicit fuel parameter: `none` means the computation was cut off; `some r`
means the Python computation terminates and returns `r`.
-/

mutual
/--
One syntax tree covering the whole class hierarchy of `syntax.py`: terms
(`Func`, `Var`), formulas (`Bot` … `Dia`), `BoxMarker`, and `Metavar`
occurrences (Python lets a `Metavar` object stand anywhere a term or formula
can).  `Func`/`Pred` argument tuples become `PList`s.  A metavariable is
identified by its `id`; its mutable `value` field lives in an explicit store
and its fixed `domain` in an environment, both outside the tree.  Quantifier
binders are full objects (Python stores a `Var` in the `var` field but the
field is not enforced).
-/
inductive PObj where
  | bot : PObj
  | not_ : PObj → PObj
  | and_ : PObj → PObj → PObj
  | or_ : PObj → PObj → PObj
  | imp : PObj → PObj → PObj
  | iff_ : PObj → PObj → PObj
  | func : String → PList → PObj
  | var : String → PObj
  | pred : String → PList → PObj
  | eq : PObj → PObj → PObj
  | all : PObj → PObj → PObj
  | ex : PObj → PObj → PObj
  | box : PObj → PObj
  | dia : PObj → PObj
  | mvar : Nat → PObj
  | boxMarker : PObj
  deriving DecidableEq, Repr

/-- Argument tuples of `Func`/`Pred` (a list type mutual with `PObj`). -/
inductive PList where
  | nil : PList
  | cons : PObj → PList → PList
  deriving DecidableEq, Repr
end

/-- Length of an argument tuple (`len(self.args)`). -/
def PList.length : PList → Nat
  | .nil => 0
  | .cons _ t => 1 + t.length

/-- Emptiness of an argument tuple (Python truthiness of `self.args`). -/
def PList.isEmpty : PList → Bool
  | .nil => true
  | .cons _ _ => false

/-- The metavariable value store: all `Metavar.value` fields, id ↦ bound
object (an absent id means `value is None`). -/
abbrev Store := List (Nat × PObj)

/-- `Metavar.value` read: first binding for the id, `none` when unbound. -/
def lookupS : Store → Nat → Option PObj
  | [], _ => none
  | (k, v) :: s, m => if k = m then some v else lookupS s m

/-- The domain environment: `Metavar.domain` per metavariable id, `none` for
`domain=None`.  Membership (`other not in self.domain`) is structural list
membership. -/
abbrev Domains := Nat → Option (List PObj)

/-- The guard `if self.domain and other not in self.domain` of
`Metavar._unify` / `Metavar.__eq__`: Python truthiness makes `None` and the
empty container skip the check. -/
def domainRejects (doms : Domains) (m : Nat) (other : PObj) : Bool :=
  match doms m with
  | none => false
  | some d => !d.isEmpty && decide (other ∉ d)

/-- Result of a `_unify` call: the Python return value together with the
mutated metavariable store and trail list. -/
abbrev URes := Bool × Store × List Nat

/-- Python's short-circuiting `and` between two `_unify` calls: the second
runs only when the first returned `True`, and state mutations of the first
persist either way. -/
def seqU (r : Option URes) (k : Store → List Nat → Option URes) : Option URes :=
  match r with
  | none => none
  | some (false, s, t) => some (false, s, t)
  | some (true, s, t) => k s t

mutual
/--
`_unify(self, other, metavars)` from `syntax.py`, dispatched on the dynamic
class of `self` (the pattern) exactly as Python does: every non-`Metavar`
class first tests `isinstance(other, Metavar)` and delegates to
`other._unify(self, metavars)`; `Metavar._unify` checks the domain, binds
when `value is None` (recording the id on the trail), and otherwise recurses
through the stored value.  `BoxMarker` has no `_unify` method, hence `none`.
Fuel decreases at every call; `none` = cut off.
-/
def unifyAux (doms : Domains) : Nat → PObj → PObj → Store → List Nat → Option URes
  | 0, _, _, _, _ => none
  | fuel + 1, .mvar m, other, s, t =>
      if domainRejects doms m other then some (false, s, t)
      else
        match lookupS s m with
        | none => some (true, (m, other) :: s, t ++ [m])
        | some v => unifyAux doms fuel v other s t
  | fuel + 1, .bot, c, s, t =>
      match c with
      | .mvar o => unifyAux doms fuel (.mvar o) .bot s t
      | .bot => some (true, s, t)
      | _ => some (false, s, t)
  | fuel + 1, .not_ a, c, s, t =>
      match c with
      | .mvar o => unifyAux doms fuel (.mvar o) (.not_ a) s t
      | .not_ a' => unifyAux doms fuel a a' s t
      | _ => some (false, s, t)
  | fuel + 1, .and_ a b, c, s, t =>
      match c with
      | .mvar o => unifyAux doms fuel (.mvar o) (.and_ a b) s t
      | .and_ a' b' =>
          seqU (unifyAux doms fuel a a' s t) (fun s' t' => unifyAux doms fuel b b' s' t')
      | _ => some (false, s, t)
  | fuel + 1, .or_ a b, c, s, t =>
      match c with
      | .mvar o => unifyAux doms fuel (.mvar o) (.or_ a b) s t
      | .or_ a' b' =>
          seqU (unifyAux doms fuel a a' s t) (fun s' t' => unifyAux doms fuel b b' s' t')
      | _ => some (false, s, t)
  | fuel + 1, .imp a b, c, s, t =>
      match c with
      | .mvar o => unifyAux doms fuel (.mvar o) (.imp a b) s t
      | .imp a' b' =>
          seqU (unifyAux doms fuel a a' s t) (fun s' t' => unifyAux doms fuel b b' s' t')
      | _ => some (false, s, t)
  | fuel + 1, .iff_ a b, c, s, t =>
      match c with
      | .mvar o => unifyAux doms fuel (.mvar o) (.iff_ a b) s t
      | .iff_ a' b' =>
          seqU (unifyAux doms fuel a a' s t) (fun s' t' => unifyAux doms fuel b b' s' t')
      | _ => some (false, s, t)
  | fuel + 1, .func n args, c, s, t =>
      match c with
      | .mvar o => unifyAux doms fuel (.mvar o) (.func n args) s t
      | .func n' args' =>
          if n = n' ∧ args.length = args'.length then
            unifyArgs doms fuel args args' s t
          else some (false, s, t)
      | _ => some (false, s, t)
  | fuel + 1, .var n, c, s, t =>
      match c with
      | .mvar o => unifyAux doms fuel (.mvar o) (.var n) s t
      | .var n' => some (decide (n = n'), s, t)
      | _ => some (false, s, t)
  | fuel + 1, .pred n args, c, s, t =>
      match c with
      | .mvar o => unifyAux doms fuel (.mvar o) (.pred n args) s t
      | .pred n' args' =>
          if n = n' ∧ args.length = args'.length then
            unifyArgs doms fuel args args' s t
          else some (false, s, t)
      | _ => some (false, s, t)
  | fuel + 1, .eq a b, c, s, t =>
      match c with
      | .mvar o => unifyAux doms fuel (.mvar o) (.eq a b) s t
      | .eq a' b' =>
          seqU (unifyAux doms fuel a a' s t) (fun s' t' => unifyAux doms fuel b b' s' t')
      | _ => some (false, s, t)
  | fuel + 1, .all v a, c, s, t =>
      match c with
      | .mvar o => unifyAux doms fuel (.mvar o) (.all v a) s t
      | .all v' a' =>
          seqU (unifyAux doms fuel v v' s t) (fun s' t' => unifyAux doms fuel a a' s' t')
      | _ => some (false, s, t)
  | fuel + 1, .ex v a, c, s, t =>
      match c with
      | .mvar o => unifyAux doms fuel (.mvar o) (.ex v a) s t
      | .ex v' a' =>
          seqU (unifyAux doms fuel v v' s t) (fun s' t' => unifyAux doms fuel a a' s' t')
      | _ => some (false, s, t)
  | fuel + 1, .box a, c, s, t =>
      match c with
      | .mvar o => unifyAux doms fuel (.mvar o) (.box a) s t
      | .box a' => unifyAux doms fuel a a' s t
      | _ => some (false, s, t)
  | fuel + 1, .dia a, c, s, t =>
      match c with
      | .mvar o => unifyAux doms fuel (.mvar o) (.dia a) s t
      | .dia a' => unifyAux doms fuel a a' s t
      | _ => some (false, s, t)
  | _ + 1, .boxMarker, _, _, _ => none

/-- `all(t1._unify(t2, metavars) for t1, t2 in zip(self.args, other.args))`
after the length guard: sequential short-circuiting child unification. -/
def unifyArgs (doms : Domains) : Nat → PList → PList → Store → List Nat → Option URes
  | _, .nil, _, s, t => some (true, s, t)
  | _, .cons _ _, .nil, s, t => some (true, s, t)
  | 0, .cons _ _, .cons _ _, _, _ => none
  | fuel + 1, .cons a as, .cons b bs, s, t =>
      seqU (unifyAux doms fuel a b s t) (fun s' t' => unifyArgs doms fuel as bs s' t')
end

/-- Rolling the trail back: `for metavar in _metavars: metavar.value = None`
(each trailed id unbound again). -/
def rollback (ids : List Nat) (s : Store) : Store :=
  ids.foldl (fun s' m => s'.filter (fun q => q.1 ≠ m)) s

/--
`Formula.unify(self, other, metavars)` from `syntax.py`: run `_unify` with a
fresh local trail; on success extend the caller's trail with the local one;
on failure reset every locally-trailed metavariable to `None` and leave the
caller's trail untouched.
-/
def unify (doms : Domains) (fuel : Nat) (p c : PObj) (s : Store)
    (callerTrail : List Nat) : Option URes :=
  match unifyAux doms fuel p c s [] with
  | none => none
  | some (true, s', t') => some (true, s', callerTrail ++ t')
  | some (false, s', t') => some (false, rollback t' s', callerTrail)

/-- Unbound means no entry carries the id. -/
theorem lookupS_eq_none {s : Store} {m : Nat} :
    lookupS s m = none ↔ ∀ q ∈ s, q.1 ≠ m := by
  induction s with
  | nil => simp [lookupS]
  | cons q s ih =>
    by_cases h : q.1 = m
    · simp [lookupS, h]
    · simp [lookupS, h, ih]

/-- An id unbound in an extended store is unbound in the base store. -/
theorem lookupS_append_none {a s : Store} {m : Nat}
    (h : lookupS (a ++ s) m = none) : lookupS s m = none := by
  rw [lookupS_eq_none] at h ⊢
  exact fun q hq => h q (List.mem_append.mpr (Or.inr hq))

/-- State-evolution invariant of a `_unify` call: the store only grows by a
block `Δ` of fresh bindings, the trail gains exactly the ids of `Δ`, and every
id of `Δ` was unbound beforehand. -/
def StInv (s : Store) (t : List Nat) (s' : Store) (t' : List Nat) : Prop :=
  ∃ Δ : Store, s' = Δ ++ s ∧ t' = t ++ (Δ.map Prod.fst).reverse ∧
    ∀ m ∈ Δ.map Prod.fst, lookupS s m = none

theorem stInv_refl {s : Store} {t : List Nat} : StInv s t s t :=
  ⟨[], by simp⟩

theorem stInv_trivial {s s' : Store} {t t' : List Nat} {b b' : Bool}
    (h : some ((b : Bool), s, t) = some (b', s', t')) : StInv s t s' t' := by
  cases h; exact stInv_refl

theorem stInv_comp {s s1 s2 : Store} {t t1 t2 : List Nat}
    (h1 : StInv s t s1 t1) (h2 : StInv s1 t1 s2 t2) : StInv s t s2 t2 := by
  obtain ⟨d1, hs1, ht1, hk1⟩ := h1
  obtain ⟨d2, hs2, ht2, hk2⟩ := h2
  refine ⟨d2 ++ d1, ?_, ?_, ?_⟩
  · rw [hs2, hs1, List.append_assoc]
  · rw [ht2, ht1, List.map_append, List.reverse_append, List.append_assoc]
  · intro m hm
    rw [List.map_append] at hm
    rcases List.mem_append.mp hm with h | h
    · exact lookupS_append_none (hs1 ▸ hk2 m h)
    · exact hk1 m h

theorem stInv_seqU {s : Store} {t : List Nat} {r : Option URes}
    {k : Store → List Nat → Option URes} {out : URes}
    (h : seqU r k = some out)
    (h1 : ∀ u, r = some u → StInv s t u.2.1 u.2.2)
    (h2 : ∀ s1 t1 u, k s1 t1 = some u → StInv s1 t1 u.2.1 u.2.2) :
    StInv s t out.2.1 out.2.2 := by
  rcases r with _ | ⟨b1, s1, t1⟩
  · simp [seqU] at h
  · cases b1
    · simp only [seqU] at h
      cases h
      exact h1 _ rfl
    · simp only [seqU] at h
      exact stInv_comp (h1 _ rfl) (h2 s1 t1 _ h)

/-- Joint state-evolution invariant for `_unify` on objects and argument
tuples, by induction on fuel. -/
theorem unify_state_core (doms : Domains) : ∀ fuel : Nat,
    (∀ p c s t r, unifyAux doms fuel p c s t = some r → StInv s t r.2.1 r.2.2) ∧
    (∀ ps cs s t r, unifyArgs doms fuel ps cs s t = some r → StInv s t r.2.1 r.2.2) := by
  intro fuel
  induction fuel with
  | zero =>
    constructor
    · intro p c s t r h
      simp [unifyAux] at h
    · intro ps cs s t r h
      obtain ⟨b, s', t'⟩ := r
      cases ps with
      | nil =>
        simp only [unifyArgs] at h
        exact stInv_trivial h
      | cons a as =>
        cases cs with
        | nil =>
          simp only [unifyArgs] at h
          exact stInv_trivial h
        | cons b bs => simp [unifyArgs] at h
  | succ fuel ih =>
    obtain ⟨ihA, ihL⟩ := ih
    constructor
    · intro p c s t r h
      obtain ⟨b, s', t'⟩ := r
      cases p
      case mvar m =>
        simp only [unifyAux] at h
        split at h
        · exact stInv_trivial h
        · split at h
          · cases h
            exact ⟨[(m, c)], by simp_all⟩
          · exact ihA _ _ _ _ _ h
      case boxMarker =>
        simp [unifyAux] at h
      all_goals
        cases c <;> simp only [unifyAux] at h <;>
          first
          | exact ihA _ _ _ _ _ h
          | exact stInv_trivial h
          | (refine stInv_seqU h (fun u hu => ihA _ _ _ _ _ hu)
              (fun s1 t1 u hu => ihA _ _ _ _ _ hu))
          | (split at h
             · exact ihL _ _ _ _ _ h
             · exact stInv_trivial h)
    · intro ps cs s t r h
      obtain ⟨b, s', t'⟩ := r
      cases ps with
      | nil =>
        simp only [unifyArgs] at h
        exact stInv_trivial h
      | cons a as =>
        cases cs with
        | nil =>
          simp only [unifyArgs] at h
          exact stInv_trivial h
        | cons b bs =>
          simp only [unifyArgs] at h
          exact stInv_seqU h (fun u hu => ihA _ _ _ _ _ hu)
            (fun s1 t1 u hu => ihL _ _ _ _ _ hu)

/-- Sequentially unbinding a list of ids filters the store by all of them. -/
theorem rollback_eq_filter (ids : List Nat) (s : Store) :
    rollback ids s = s.filter (fun q => decide (q.1 ∉ ids)) := by
  induction ids generalizing s with
  | nil => simp [rollback]
  | cons m ids ih =>
    show rollback ids (s.filter fun q => q.1 ≠ m) = _
    rw [ih, List.filter_filter]
    congr 1
    funext q
    by_cases h1 : q.1 = m <;> by_cases h2 : q.1 ∈ ids <;> simp [h1, h2]

/-- Rolling back exactly the block of fresh bindings restores the store. -/
theorem rollback_restores (Δ : Store) (s : Store) (ids : List Nat)
    (hids : ∀ m, m ∈ ids ↔ m ∈ Δ.map Prod.fst)
    (hfresh : ∀ m ∈ Δ.map Prod.fst, lookupS s m = none) :
    rollback ids (Δ ++ s) = s := by
  rw [rollback_eq_filter, List.filter_append]
  have h1 : Δ.filter (fun q => decide (q.1 ∉ ids)) = [] := by
    rw [List.filter_eq_nil_iff]
    intro q hq
    simp only [decide_eq_true_eq, not_not]
    exact (hids q.1).mpr (List.mem_map.mpr ⟨q, hq, rfl⟩)
  have h2 : s.filter (fun q => decide (q.1 ∉ ids)) = s := by
    rw [List.filter_eq_self]
    intro q hq
    simp only [decide_eq_true_eq]
    intro hmem
    exact absurd rfl (lookupS_eq_none.mp (hfresh q.1 ((hids q.1).mp hmem)) q hq)
  rw [h1, h2, List.nil_append]

/--
C1.  Unification rollback purity: whenever a top-level `Formula.unify` call
returns `False`, the metavariable value store is exactly what it was before
the call (so every metavariable that was unbound is unbound again, and every
bound one keeps its binding), and the caller-supplied trail list is unchanged.
-/
theorem unify_rollback_purity (doms : Domains) (fuel : Nat) (p c : PObj)
    (s : Store) (tr : List Nat) (s' : Store) (t' : List Nat)
    (h : unify doms fuel p c s tr = some (false, s', t')) :
    s' = s ∧ t' = tr := by
  unfold unify at h
  split at h
  · exact absurd h (by simp)
  · exact absurd h (by simp)
  · next s0 t0 heq =>
      cases h
      obtain ⟨Δ, hs0, ht0, hfresh⟩ :=
        (unify_state_core doms fuel).1 p c s [] (false, s0, t0) heq
      simp only [List.nil_append] at ht0
      subst hs0 ht0
      refine ⟨rollback_restores Δ s _ (fun m => List.mem_reverse) hfresh, rfl⟩

/-- Witness for C1 at a concrete failing unification: the pattern
`?m1 ∧ ⊥` against `⊥ ∧ ¬⊥` binds `?m1`, then fails on the right conjunct,
and the store `[(2, ⊥)]` and caller trail `[7]` are restored. -/
theorem unify_rollback_purity_witness :
    [(2, PObj.bot)] = ([(2, PObj.bot)] : Store) ∧ [7] = ([7] : List Nat) :=
  unify_rollback_purity (fun _ => none) 10 (.and_ (.mvar 1) .bot)
    (.and_ .bot (.not_ .bot)) [(2, .bot)] [7] [(2, .bot)] [7] (by decide)

/-- Result of a Python `==` comparison: the returned boolean together with the
(possibly mutated) metavariable store. -/
abbrev EqRes := Bool × Store

/-- Short-circuiting conjunction of field comparisons inside a generated
dataclass `__eq__`: the second comparison runs only when the first returned
`True`; mutations persist either way. -/
def seqE (r : Option EqRes) (k : Store → Option EqRes) : Option EqRes :=
  match r with
  | none => none
  | some (false, s) => some (false, s)
  | some (true, s) => k s

mutual
/--
Python `==` over `syntax.py` objects.  `Metavar.__eq__` checks the domain,
assigns `self.value = other` and returns `True` when `value is None`, and
otherwise compares the stored value; the frozen-dataclass `__eq__` of every
other class compares fields structurally, short-circuiting left to right, and
returns `NotImplemented` against a different class, which Python resolves by
trying the reflected `Metavar.__eq__` (hence a bare metavariable on the right
is also bound).  Fuel decreases at every call; `none` = cut off.
-/
def pyEq (doms : Domains) : Nat → PObj → PObj → Store → Option EqRes
  | 0, _, _, _ => none
  | fuel + 1, .mvar m, other, s =>
      if domainRejects doms m other then some (false, s)
      else
        match lookupS s m with
        | none => some (true, (m, other) :: s)
        | some v => pyEq doms fuel v other s
  | fuel + 1, .bot, c, s =>
      match c with
      | .mvar o => pyEq doms fuel (.mvar o) .bot s
      | .bot => some (true, s)
      | _ => some (false, s)
  | fuel + 1, .not_ a, c, s =>
      match c with
      | .mvar o => pyEq doms fuel (.mvar o) (.not_ a) s
      | .not_ a' => pyEq doms fuel a a' s
      | _ => some (false, s)
  | fuel + 1, .and_ a b, c, s =>
      match c with
      | .mvar o => pyEq doms fuel (.mvar o) (.and_ a b) s
      | .and_ a' b' => seqE (pyEq doms fuel a a' s) (fun s' => pyEq doms fuel b b' s')
      | _ => some (false, s)
  | fuel + 1, .or_ a b, c, s =>
      match c with
      | .mvar o => pyEq doms fuel (.mvar o) (.or_ a b) s
      | .or_ a' b' => seqE (pyEq doms fuel a a' s) (fun s' => pyEq doms fuel b b' s')
      | _ => some (false, s)
  | fuel + 1, .imp a b, c, s =>
      match c with
      | .mvar o => pyEq doms fuel (.mvar o) (.imp a b) s
      | .imp a' b' => seqE (pyEq doms fuel a a' s) (fun s' => pyEq doms fuel b b' s')
      | _ => some (false, s)
  | fuel + 1, .iff_ a b, c, s =>
      match c with
      | .mvar o => pyEq doms fuel (.mvar o) (.iff_ a b) s
      | .iff_ a' b' => seqE (pyEq doms fuel a a' s) (fun s' => pyEq doms fuel b b' s')
      | _ => some (false, s)
  | fuel + 1, .func n args, c, s =>
      match c with
      | .mvar o => pyEq doms fuel (.mvar o) (.func n args) s
      | .func n' args' =>
          if n = n' then pyEqArgs doms fuel args args' s else some (false, s)
      | _ => some (false, s)
  | fuel + 1, .var n, c, s =>
      match c with
      | .mvar o => pyEq doms fuel (.mvar o) (.var n) s
      | .var n' => some (decide (n = n'), s)
      | _ => some (false, s)
  | fuel + 1, .pred n args, c, s =>
      match c with
      | .mvar o => pyEq doms fuel (.mvar o) (.pred n args) s
      | .pred n' args' =>
          if n = n' then pyEqArgs doms fuel args args' s else some (false, s)
      | _ => some (false, s)
  | fuel + 1, .eq a b, c, s =>
      match c with
      | .mvar o => pyEq doms fuel (.mvar o) (.eq a b) s
      | .eq a' b' => seqE (pyEq doms fuel a a' s) (fun s' => pyEq doms fuel b b' s')
      | _ => some (false, s)
  | fuel + 1, .all v a, c, s =>
      match c with
      | .mvar o => pyEq doms fuel (.mvar o) (.all v a) s
      | .all v' a' => seqE (pyEq doms fuel v v' s) (fun s' => pyEq doms fuel a a' s')
      | _ => some (false, s)
  | fuel + 1, .ex v a, c, s =>
      match c with
      | .mvar o => pyEq doms fuel (.mvar o) (.ex v a) s
      | .ex v' a' => seqE (pyEq doms fuel v v' s) (fun s' => pyEq doms fuel a a' s')
      | _ => some (false, s)
  | fuel + 1, .box a, c, s =>
      match c with
      | .mvar o => pyEq doms fuel (.mvar o) (.box a) s
      | .box a' => pyEq doms fuel a a' s
      | _ => some (false, s)
  | fuel + 1, .dia a, c, s =>
      match c with
      | .mvar o => pyEq doms fuel (.mvar o) (.dia a) s
      | .dia a' => pyEq doms fuel a a' s
      | _ => some (false, s)
  | fuel + 1, .boxMarker, c, s =>
      match c with
      | .mvar o => pyEq doms fuel (.mvar o) .boxMarker s
      | .boxMarker => some (true, s)
      | _ => some (false, s)

/-- Tuple `==` in CPython: compare elementwise until the first mismatch, then
compare lengths. -/
def pyEqArgs (doms : Domains) : Nat → PList → PList → Store → Option EqRes
  | _, .nil, .nil, s => some (true, s)
  | _, .nil, .cons _ _, s => some (false, s)
  | _, .cons _ _, .nil, s => some (false, s)
  | 0, .cons _ _, .cons _ _, _ => none
  | fuel + 1, .cons a as, .cons b bs, s =>
      seqE (pyEq doms fuel a b s) (fun s' => pyEqArgs doms fuel as bs s')
end

/--
C10.  `Metavar.__eq__` is side-effecting: comparing an unbound metavariable
(`value is None`) whose domain does not reject `x` against `x` assigns
`value = x` and returns `True` — structural equality on objects containing
unbound metavariables mutates the store rather than being a pure comparison.
-/
theorem metavar_eq_mutates (doms : Domains) (fuel : Nat) (m : Nat) (x : PObj)
    (s : Store) (hunbound : lookupS s m = none)
    (hdom : domainRejects doms m x = false) :
    pyEq doms (fuel + 1) (.mvar m) x s = some (true, (m, x) :: s) := by
  simp [pyEq, hdom, hunbound]

/-- Witness for C10: comparing the unbound metavariable `?m1` (no domain)
with `⊥` returns `True` and binds `?m1 ↦ ⊥` in the store. -/
theorem metavar_eq_mutates_witness :
    lookupS [] 1 = none ∧ domainRejects (fun _ => none) 1 .bot = false ∧
      pyEq (fun _ => none) 1 (.mvar 1) .bot [] = some (true, [(1, .bot)]) :=
  ⟨by decide, by decide,
    metavar_eq_mutates (fun _ => none) 0 1 .bot [] (by decide) (by decide)⟩

mutual
/-- `is_tfl_formula` from `syntax.py`: only 0-ary predicates, `⊥`, and the
propositional connectives. -/
def is_tfl_formula : PObj → Bool
  | .pred _ args => args.isEmpty
  | .bot => true
  | .not_ a => is_tfl_formula a
  | .and_ a b => is_tfl_formula a && is_tfl_formula b
  | .or_ a b => is_tfl_formula a && is_tfl_formula b
  | .imp a b => is_tfl_formula a && is_tfl_formula b
  | .iff_ a b => is_tfl_formula a && is_tfl_formula b
  | _ => false
end

mutual
/-- `is_fol_formula` from `syntax.py`: predicates of any arity, equality and
quantifiers admitted; no modal operators.  (Free variables are allowed: the
separate `is_fol_sentence` adds closedness.) -/
def is_fol_formula : PObj → Bool
  | .bot => true
  | .pred _ _ => true
  | .eq _ _ => true
  | .not_ a => is_fol_formula a
  | .all _ a => is_fol_formula a
  | .ex _ a => is_fol_formula a
  | .and_ a b => is_fol_formula a && is_fol_formula b
  | .or_ a b => is_fol_formula a && is_fol_formula b
  | .imp a b => is_fol_formula a && is_fol_formula b
  | .iff_ a b => is_fol_formula a && is_fol_formula b
  | _ => false
end

mutual
/-- `is_ml_formula` from `syntax.py`: 0-ary predicates, propositional
connectives, `Box` and `Dia`. -/
def is_ml_formula : PObj → Bool
  | .pred _ args => args.isEmpty
  | .bot => true
  | .not_ a => is_ml_formula a
  | .box a => is_ml_formula a
  | .dia a => is_ml_formula a
  | .and_ a b => is_ml_formula a && is_ml_formula b
  | .or_ a b => is_ml_formula a && is_ml_formula b
  | .imp a b => is_ml_formula a && is_ml_formula b
  | .iff_ a b => is_ml_formula a && is_ml_formula b
  | _ => false
end

mutual
/-- `atomic_terms(formula, free)` from `syntax.py`.  Python's sets become
lists with set (membership) semantics: union is append, removal of the bound
variable is a filter. -/
def atomic_terms (formula : PObj) (free : Bool) : List PObj :=
  match formula with
  | .bot => []
  | .not_ a => atomic_terms a free
  | .box a => atomic_terms a free
  | .dia a => atomic_terms a free
  | .and_ a b => atomic_terms a free ++ atomic_terms b free
  | .or_ a b => atomic_terms a free ++ atomic_terms b free
  | .imp a b => atomic_terms a free ++ atomic_terms b free
  | .iff_ a b => atomic_terms a free ++ atomic_terms b free
  | .eq a b => atomic_terms a free ++ atomic_terms b free
  | .func n args =>
      if args.isEmpty then [.func n args] else atomic_terms_args args free
  | .var n => [.var n]
  | .pred _ args => atomic_terms_args args free
  | .all v a =>
      if free then (atomic_terms a free).filter (fun t => t ≠ v)
      else atomic_terms a free
  | .ex v a =>
      if free then (atomic_terms a free).filter (fun t => t ≠ v)
      else atomic_terms a free
  | _ => []

/-- Union of `atomic_terms` over an argument tuple. -/
def atomic_terms_args (args : PList) (free : Bool) : List PObj :=
  match args with
  | .nil => []
  | .cons a as => atomic_terms a free ++ atomic_terms_args as free
end

/-- `isinstance(t, Func)`. -/
def isFuncObj : PObj → Bool
  | .func _ _ => true
  | _ => false

/-- `isinstance(t, Var)`. -/
def isVarObj : PObj → Bool
  | .var _ => true
  | _ => false

/-- `constants` from `syntax.py`. -/
def constants (formula : PObj) : List PObj :=
  (atomic_terms formula false).filter isFuncObj

/-- `free_vars` from `syntax.py`. -/
def free_vars (formula : PObj) : List PObj :=
  (atomic_terms formula true).filter isVarObj

/-- `is_fol_sentence` from `syntax.py` (`not free_vars(formula)` is emptiness
of the set). -/
def is_fol_sentence (formula : PObj) : Bool :=
  is_fol_formula formula && (free_vars formula).isEmpty

/-- The ten logic tokens of `cli.py`'s `logics` table. -/
inductive Logic where
  | TFL | FOL | MLK | MLT | MLS4 | MLS5 | FOMLK | FOMLT | FOMLS4 | FOMLS5
  deriving DecidableEq, Repr

/-- `parse_and_verify_formula` from `cli.py`, after the parse: the sequence
of early-returning `if` statements over the already-parsed formula, ending in
`raise ParsingError(...)` (modelled as `Except.error`). -/
def parse_and_verify_formula (f : PObj) (logic : Logic) : Except String PObj :=
  if logic = .TFL ∧ is_tfl_formula f then .ok f
  else if logic = .FOL ∧ is_fol_formula f then .ok f
  else if (logic = .MLK ∨ logic = .MLT ∨ logic = .MLS4 ∨ logic = .MLS5)
      ∧ is_ml_formula f then .ok f
  else if logic = .FOMLK ∨ logic = .FOMLT ∨ logic = .FOMLS4 ∨ logic = .FOMLS5 then
    .ok f
  else .error "is not a well-formed formula."

/-- Whether the verification accepted (no `ParsingError`). -/
def acceptedF (r : Except String PObj) : Bool :=
  match r with
  | .ok _ => true
  | .error _ => false

/--
C2 counterexample.  `parse_and_verify_formula` does not raise for the FOL
formula `P(x)` although `x` occurs free (the code checks `is_fol_formula`,
not `is_fol_sentence`), and for FOMLK it accepts `☐P(x)` although that
formula is in neither the FOL nor the ML fragment — refuting the claim that
rejection happens exactly on non-well-formed-`L` formulas with free-variable
rejection for FOL and fragment-union rejection for FOML.
-/
theorem parse_and_verify_free_var_accepted :
    acceptedF (parse_and_verify_formula (.pred "P" (.cons (.var "x") .nil)) .FOL)
        = true
    ∧ free_vars (.pred "P" (.cons (.var "x") .nil)) ≠ []
    ∧ is_fol_sentence (.pred "P" (.cons (.var "x") .nil)) = false
    ∧ acceptedF (parse_and_verify_formula
        (.box (.pred "P" (.cons (.var "x") .nil))) .FOMLK) = true
    ∧ is_fol_formula (.box (.pred "P" (.cons (.var "x") .nil))) = false
    ∧ is_ml_formula (.box (.pred "P" (.cons (.var "x") .nil))) = false := by
  decide

/--
C2 amended.  `parse_and_verify_formula(s, L)` accepts exactly when the parsed
formula satisfies `is_tfl_formula` (TFL), `is_fol_formula` (FOL — free
variables are not rejected), `is_ml_formula` (the four ML logics); every
parsed formula is accepted for the four FOML logics.
-/
theorem parse_and_verify_formula_spec (f : PObj) :
    acceptedF (parse_and_verify_formula f .TFL) = is_tfl_formula f
    ∧ acceptedF (parse_and_verify_formula f .FOL) = is_fol_formula f
    ∧ acceptedF (parse_and_verify_formula f .MLK) = is_ml_formula f
    ∧ acceptedF (parse_and_verify_formula f .MLT) = is_ml_formula f
    ∧ acceptedF (parse_and_verify_formula f .MLS4) = is_ml_formula f
    ∧ acceptedF (parse_and_verify_formula f .MLS5) = is_ml_formula f
    ∧ acceptedF (parse_and_verify_formula f .FOMLK) = true
    ∧ acceptedF (parse_and_verify_formula f .FOMLT) = true
    ∧ acceptedF (parse_and_verify_formula f .FOMLS4) = true
    ∧ acceptedF (parse_and_verify_formula f .FOMLS5) = true := by
  refine ⟨?_, ?_, ?_, ?_, ?_, ?_, ?_, ?_, ?_, ?_⟩ <;>
    · unfold parse_and_verify_formula
      rcases htfl : is_tfl_formula f <;> rcases hfol : is_fol_formula f <;>
        rcases hml : is_ml_formula f <;> simp [htfl, hfol, hml, acceptedF]

mutual
/--
`sub_term(formula, term, gen, ignore)` from `syntax.py`.  The zero-argument
generator `gen` with internal state becomes a stream `gen : Nat → PObj`
together with a threaded call counter: calling `gen()` yields `gen k` and
advances the counter.  The `==` tests against `term` are structural (the
claim restricts `term` to a `Var` or a 0-ary `Func`, for which Python `==`
is pure structural comparison).
-/
def sub_term (formula term : PObj) (gen : Nat → PObj) (ign : PObj → Bool)
    (k : Nat) : PObj × Nat :=
  match formula with
  | .bot => (.bot, k)
  | .not_ a =>
      let r := sub_term a term gen ign k
      (.not_ r.1, r.2)
  | .box a =>
      let r := sub_term a term gen ign k
      (.box r.1, r.2)
  | .dia a =>
      let r := sub_term a term gen ign k
      (.dia r.1, r.2)
  | .and_ a b =>
      let r := sub_term a term gen ign k
      let q := sub_term b term gen ign r.2
      (.and_ r.1 q.1, q.2)
  | .or_ a b =>
      let r := sub_term a term gen ign k
      let q := sub_term b term gen ign r.2
      (.or_ r.1 q.1, q.2)
  | .imp a b =>
      let r := sub_term a term gen ign k
      let q := sub_term b term gen ign r.2
      (.imp r.1 q.1, q.2)
  | .iff_ a b =>
      let r := sub_term a term gen ign k
      let q := sub_term b term gen ign r.2
      (.iff_ r.1 q.1, q.2)
  | .eq a b =>
      let r := sub_term a term gen ign k
      let q := sub_term b term gen ign r.2
      (.eq r.1 q.1, q.2)
  | .func s args =>
      if .func s args = term then (gen k, k + 1)
      else
        let r := sub_term_args args term gen ign k
        (.func s r.1, r.2)
  | .var n =>
      if .var n = term then (gen k, k + 1) else (.var n, k)
  | .pred s args =>
      let r := sub_term_args args term gen ign k
      (.pred s r.1, r.2)
  | .all v a =>
      if v = term ∨ ign v then (.all v a, k)
      else
        let r := sub_term a term gen ign k
        (.all v r.1, r.2)
  | .ex v a =>
      if v = term ∨ ign v then (.ex v a, k)
      else
        let r := sub_term a term gen ign k
        (.ex v r.1, r.2)
  | .mvar m => (.mvar m, k)
  | .boxMarker => (.boxMarker, k)

/-- `tuple(sub_term(t, term, gen, ignore) for t in args)`: left-to-right over
the argument tuple, threading the generator counter. -/
def sub_term_args (args : PList) (term : PObj) (gen : Nat → PObj)
    (ign : PObj → Bool) (k : Nat) : PList × Nat :=
  match args with
  | .nil => (.nil, k)
  | .cons a as =>
      let r := sub_term a term gen ign k
      let q := sub_term_args as term gen ign r.2
      (.cons r.1 q.1, q.2)
end

mutual
/-- Modelled from the spec's words for C8: the number of occurrences of
`term` that `sub_term` is meant to replace — free occurrences only, not
under a quantifier binding `term` nor under a quantifier whose bound
variable satisfies `ignore`. -/
def countOcc (formula term : PObj) (ign : PObj → Bool) : Nat :=
  match formula with
  | .bot => 0
  | .not_ a => countOcc a term ign
  | .box a => countOcc a term ign
  | .dia a => countOcc a term ign
  | .and_ a b => countOcc a term ign + countOcc b term ign
  | .or_ a b => countOcc a term ign + countOcc b term ign
  | .imp a b => countOcc a term ign + countOcc b term ign
  | .iff_ a b => countOcc a term ign + countOcc b term ign
  | .eq a b => countOcc a term ign + countOcc b term ign
  | .func s args =>
      if .func s args = term then 1 else countOccArgs args term ign
  | .var n => if .var n = term then 1 else 0
  | .pred _ args => countOccArgs args term ign
  | .all v a => if v = term ∨ ign v then 0 else countOcc a term ign
  | .ex v a => if v = term ∨ ign v then 0 else countOcc a term ign
  | _ => 0

/-- Occurrence count over an argument tuple. -/
def countOccArgs (args : PList) (term : PObj) (ign : PObj → Bool) : Nat :=
  match args with
  | .nil => 0
  | .cons a as => countOcc a term ign + countOccArgs as term ign
end

mutual
/-- Modelled from the spec's words for C8: replace the `j`-th free occurrence
(left to right) of `term` by `g j` — one fresh generator result per
occurrence — leaving occurrences bound by an enclosing quantifier over
`term`, and the bodies of quantifiers whose bound variable satisfies
`ignore`, unchanged. -/
def specSub (formula term : PObj) (g : Nat → PObj) (ign : PObj → Bool) : PObj :=
  match formula with
  | .bot => .bot
  | .not_ a => .not_ (specSub a term g ign)
  | .box a => .box (specSub a term g ign)
  | .dia a => .dia (specSub a term g ign)
  | .and_ a b =>
      .and_ (specSub a term g ign)
        (specSub b term (fun j => g (countOcc a term ign + j)) ign)
  | .or_ a b =>
      .or_ (specSub a term g ign)
        (specSub b term (fun j => g (countOcc a term ign + j)) ign)
  | .imp a b =>
      .imp (specSub a term g ign)
        (specSub b term (fun j => g (countOcc a term ign + j)) ign)
  | .iff_ a b =>
      .iff_ (specSub a term g ign)
        (specSub b term (fun j => g (countOcc a term ign + j)) ign)
  | .eq a b =>
      .eq (specSub a term g ign)
        (specSub b term (fun j => g (countOcc a term ign + j)) ign)
  | .func s args =>
      if .func s args = term then g 0 else .func s (specSubArgs args term g ign)
  | .var n => if .var n = term then g 0 else .var n
  | .pred s args => .pred s (specSubArgs args term g ign)
  | .all v a =>
      if v = term ∨ ign v then .all v a else .all v (specSub a term g ign)
  | .ex v a =>
      if v = term ∨ ign v then .ex v a else .ex v (specSub a term g ign)
  | f => f

/-- Occurrence-indexed replacement over an argument tuple. -/
def specSubArgs (args : PList) (term : PObj) (g : Nat → PObj)
    (ign : PObj → Bool) : PList :=
  match args with
  | .nil => .nil
  | .cons a as =>
      .cons (specSub a term g ign)
        (specSubArgs as term (fun j => g (countOcc a term ign + j)) ign)
end

mutual
/--
C8.  `sub_term` replaces exactly the free, non-ignored occurrences of the
target: the result is the occurrence-indexed replacement `specSub` where the
`j`-th replaced occurrence (left to right) receives the `j`-th fresh
generator call, occurrences under a quantifier binding the target and bodies
of quantifiers with an ignored bound variable are untouched, and the
generator is called exactly `countOcc` times (once per occurrence).
-/
theorem sub_term_spec (φ t : PObj) (gen : Nat → PObj) (ign : PObj → Bool)
    (k : Nat) :
    sub_term φ t gen ign k
      = (specSub φ t (fun i => gen (k + i)) ign, k + countOcc φ t ign) :=
  match φ with
  | .bot => by simp [sub_term, specSub, countOcc]
  | .not_ a => by
      have ih := sub_term_spec a t gen ign k
      simp [sub_term, specSub, countOcc, ih]
  | .box a => by
      have ih := sub_term_spec a t gen ign k
      simp [sub_term, specSub, countOcc, ih]
  | .dia a => by
      have ih := sub_term_spec a t gen ign k
      simp [sub_term, specSub, countOcc, ih]
  | .and_ a b => by
      have ih1 := sub_term_spec a t gen ign k
      have ih2 := sub_term_spec b t gen ign (k + countOcc a t ign)
      simp [sub_term, specSub, countOcc, ih1, ih2, Nat.add_assoc]
  | .or_ a b => by
      have ih1 := sub_term_spec a t gen ign k
      have ih2 := sub_term_spec b t gen ign (k + countOcc a t ign)
      simp [sub_term, specSub, countOcc, ih1, ih2, Nat.add_assoc]
  | .imp a b => by
      have ih1 := sub_term_spec a t gen ign k
      have ih2 := sub_term_spec b t gen ign (k + countOcc a t ign)
      simp [sub_term, specSub, countOcc, ih1, ih2, Nat.add_assoc]
  | .iff_ a b => by
      have ih1 := sub_term_spec a t gen ign k
      have ih2 := sub_term_spec b t gen ign (k + countOcc a t ign)
      simp [sub_term, specSub, countOcc, ih1, ih2, Nat.add_assoc]
  | .eq a b => by
      have ih1 := sub_term_spec a t gen ign k
      have ih2 := sub_term_spec b t gen ign (k + countOcc a t ign)
      simp [sub_term, specSub, countOcc, ih1, ih2, Nat.add_assoc]
  | .func s args => by
      have ih := sub_term_args_spec args t gen ign k
      by_cases h : PObj.func s args = t <;>
        simp [sub_term, specSub, countOcc, ih, h]
  | .var n => by
      by_cases h : PObj.var n = t <;> simp [sub_term, specSub, countOcc, h]
  | .pred s args => by
      have ih := sub_term_args_spec args t gen ign k
      simp [sub_term, specSub, countOcc, ih]
  | .all v a => by
      have ih := sub_term_spec a t gen ign k
      by_cases h : v = t ∨ ign v <;>
        simp [sub_term, specSub, countOcc, ih, h]
  | .ex v a => by
      have ih := sub_term_spec a t gen ign k
      by_cases h : v = t ∨ ign v <;>
        simp [sub_term, specSub, countOcc, ih, h]
  | .mvar m => by simp [sub_term, specSub, countOcc]
  | .boxMarker => by simp [sub_term, specSub, countOcc]

/-- Argument-tuple analogue of `sub_term_spec`. -/
theorem sub_term_args_spec (args : PList) (t : PObj) (gen : Nat → PObj)
    (ign : PObj → Bool) (k : Nat) :
    sub_term_args args t gen ign k
      = (specSubArgs args t (fun i => gen (k + i)) ign,
         k + countOccArgs args t ign) :=
  match args with
  | .nil => by simp [sub_term_args, specSubArgs, countOccArgs]
  | .cons a as => by
      have ih1 := sub_term_spec a t gen ign k
      have ih2 := sub_term_args_spec as t gen ign (k + countOcc a t ign)
      simp [sub_term_args, specSubArgs, countOccArgs, ih1, ih2, Nat.add_assoc]
end

/-! ## Prover (`prover.py`) -/

/--
A `_ProofObject` of `prover.py`: a `_Line` (id, formula, rule name, cited
ids) or a nested `_Proof` (id, sequence, goal).  The global construction
counter `_ProofObject.count` is threaded explicitly; `id` is the value it had
at construction.
-/
inductive PO where
  | line (id : Nat) (formula : PObj) (rule : String) (citations : List Nat)
  | sub (id : Nat) (seq : List PO) (goal : PObj)

/-- `_ProofObject.is_line`. -/
def PO.isLine : PO → Bool
  | .line .. => true
  | .sub .. => false

/-- The construction id. -/
def PO.poId : PO → Nat
  | .line i .. => i
  | .sub i .. => i

/-- `_Line.is_assumption` (`rule in ("PR", "AS")`). -/
def isAssumptionRule (r : String) : Bool :=
  r = "PR" || r = "AS"

mutual
/-- `line_count` of a proof object: 1 for a line, the recursive sum for a
subproof. -/
def PO.lineCount : PO → Nat
  | .line .. => 1
  | .sub _ s _ => poLineCount s

/-- Sum of `line_count` over a sequence. -/
def poLineCount : List PO → Nat
  | [] => 0
  | o :: os => o.lineCount + poLineCount os
end

mutual
/-- `ip_count` of a proof object: 1 for an `IP` line, the recursive sum for
a subproof. -/
def PO.ipCount : PO → Nat
  | .line _ _ r _ => if r = "IP" then 1 else 0
  | .sub _ s _ => poIpCount s

/-- Sum of `ip_count` over a sequence. -/
def poIpCount : List PO → Nat
  | [] => 0
  | o :: os => o.ipCount + poIpCount os
end

mutual
/-- Python dataclass `==` on proof objects: compares declared fields only —
`(formula, rule, citations)` for `_Line`, `(_seq, goal)` for `_Proof` — the
construction `id` does not participate. -/
def poEqB : PO → PO → Bool
  | .line _ f r c, .line _ f' r' c' => f = f' && r = r' && c = c'
  | .sub _ s g, .sub _ s' g' => poSeqEqB s s' && g = g'
  | _, _ => false

/-- Python list `==` on sequences of proof objects. -/
def poSeqEqB : List PO → List PO → Bool
  | [], [] => true
  | a :: as, b :: bs => poEqB a b && poSeqEqB as bs
  | _, _ => false
end

/--
The working `_Proof` of the prover: construction id, sequence and goal.  The
cached fields (`formulas`, `assumptions`, `line_count`, `ip_count`) are
modelled as the derived functions below; at every point where the Python
caches are read they agree with the recomputation from `seq` (the only
cache/recompute divergence — `formulas` after `pop_reiteration` — keeps a
formula that is still present on the cited line of the same sequence).
-/
structure Prf where
  id : Nat
  seq : List PO
  goal : PObj

/-- `self.formulas`: formulas of the top-level lines of the sequence. -/
def Prf.formulas (p : Prf) : List PObj :=
  p.seq.filterMap (fun o => match o with
    | .line _ f _ _ => some f
    | _ => none)

/-- `self.assumptions`: formulas of the top-level assumption lines. -/
def Prf.assumptions (p : Prf) : List PObj :=
  p.seq.filterMap (fun o => match o with
    | .line _ f r _ => if isAssumptionRule r then some f else none
    | _ => none)

/-- `self.line_count`. -/
def Prf.lineCount (p : Prf) : Nat := poLineCount p.seq

/-- `self.ip_count`. -/
def Prf.ipCount (p : Prf) : Nat := poIpCount p.seq

/-- The cost key `(ip_count, line_count)` used by branch selection and
memoization. -/
def pKey (p : Prf) : Nat × Nat := (p.ipCount, p.lineCount)

/-- Python tuple `<` (lexicographic) on cost pairs. -/
def costLt (a b : Nat × Nat) : Bool :=
  a.1 < b.1 || (a.1 = b.1 && a.2 < b.2)

/-- Python tuple `≤` (lexicographic) on cost pairs. -/
def costLe (a b : Nat × Nat) : Bool :=
  a.1 < b.1 || (a.1 = b.1 && a.2 ≤ b.2)

/-- The threaded global state: the `_ProofObject.count` id counter and the
number of `time.monotonic()` reads made so far. -/
structure St where
  nextId : Nat
  tick : Nat

/-- Creating a `_Line`: bump the id counter. -/
def mkLine (st : St) (f : PObj) (rule : String) (cits : List Nat) : PO × St :=
  (.line (st.nextId + 1) f rule cits, { st with nextId := st.nextId + 1 })

/-- Creating a `_Proof`: bump the id counter. -/
def mkPrf (st : St) (seq : List PO) (goal : PObj) : Prf × St :=
  (⟨st.nextId + 1, seq, goal⟩, { st with nextId := st.nextId + 1 })

/-- `_Proof.add` for a single line (all `add` uses append lines or closed
subproofs at the tail, updating the caches consistently). -/
def Prf.add (p : Prf) (objs : List PO) : Prf :=
  { p with seq := p.seq ++ objs }

/-- `_Proof.pop_reiteration`: if the last object is an `R` line, remove it
and return its citation, otherwise return the last object's id.  (`seq[-1]`
on an empty sequence would raise in Python; such states do not arise and the
model returns id 0.) -/
def popReiteration (p : Prf) : Nat × Prf :=
  match p.seq.getLast? with
  | some (.line i _ r cits) =>
      if r = "R" then (cits.headD 0, { p with seq := p.seq.dropLast })
      else (i, p)
  | some o => (o.poId, p)
  | none => (0, p)

/-- `_Proof.commit_best_branch`: `min` with key `(ip_count, line_count)` is
first-minimum-wins; on success the winner's sequence is installed. -/
def commit_best_branch (p : Prf) (branches : List Prf) : Bool × Prf :=
  match branches with
  | [] => (false, p)
  | b :: bs =>
      let best := bs.foldl (fun acc q => if costLt (pKey q) (pKey acc) then q else acc) b
      (true, { p with seq := best.seq })

/-- `find_subproof(seq, assumption, conclusion)` from `prover.py`: the first
closed subproof of length ≥ 2 whose first object is a line with the given
assumption and whose last object is a line with the given conclusion. -/
def find_subproof (seq : List PO) (assumption conclusion : PObj) : Option PO :=
  seq.find? (fun obj =>
    match obj with
    | .line .. => false
    | .sub _ s _ =>
        match s with
        | [] => false
        | [_] => false
        | first :: rest =>
            (match first with
             | .line _ f _ _ => f = assumption
             | _ => false)
            && (match (first :: rest).getLast? with
                | some (.line _ f _ _) => f = conclusion
                | _ => false))

/-! ### SAT oracle (`tfl_sat.py` is not under `src/`; modelled from the
spec, §4.6) -/

/-- Modelled from the spec: `prop_vars(φ)` — the atomic sub-formulas treated
as booleans; each distinct `Pred`, `Eq`, quantified or modal formula is
opaque, `⊥` is the falsum constant, connectives recurse. -/
def prop_vars : PObj → List PObj
  | .bot => []
  | .not_ a => prop_vars a
  | .and_ a b => prop_vars a ++ prop_vars b
  | .or_ a b => prop_vars a ++ prop_vars b
  | .imp a b => prop_vars a ++ prop_vars b
  | .iff_ a b => prop_vars a ++ prop_vars b
  | f => [f]

/-- Modelled from the spec: `evaluate(φ, assignment)` — standard Boolean
evaluation with opaque atoms looked up in the assignment. -/
def evaluate (v : PObj → Bool) : PObj → Bool
  | .bot => false
  | .not_ a => !evaluate v a
  | .and_ a b => evaluate v a && evaluate v b
  | .or_ a b => evaluate v a || evaluate v b
  | .imp a b => !evaluate v a || evaluate v b
  | .iff_ a b => evaluate v a == evaluate v b
  | f => v f

/-- All assignments over a list of atoms, as association lists. -/
def allAssignments : List PObj → List (List (PObj × Bool))
  | [] => [[]]
  | a :: as =>
      (allAssignments as).flatMap (fun m => [(a, true) :: m, (a, false) :: m])

/-- Assignment lookup (atoms of the enumeration are always present). -/
def lookupB (m : List (PObj × Bool)) (a : PObj) : Bool :=
  match m with
  | [] => false
  | (k, v) :: rest => if k = a then v else lookupB rest a

/-- Modelled from the spec: `countermodel(Γ, χ)` — enumerate assignments over
the atoms of `Γ ∪ {χ}` and return the first making every premise true and
the conclusion false, else `None`. -/
def countermodel (premises : List PObj) (conclusion : PObj) :
    Option (List (PObj × Bool)) :=
  let atoms := ((premises ++ [conclusion]).flatMap prop_vars).dedup
  (allAssignments atoms).find? (fun m =>
    premises.all (fun p => evaluate (lookupB m) p)
      && !evaluate (lookupB m) conclusion)

/-- Modelled from the spec: `is_valid(Γ, χ) = countermodel(Γ, χ) is None`. -/
def is_valid (premises : List PObj) (conclusion : PObj) : Bool :=
  (countermodel premises conclusion).isNone

/-! ### Memoization (`Prover._enter_state`) -/

/-- A memo key: (`frozenset(proof.assumptions)`, `proof.goal`); the formula
set carried as a list with set semantics. -/
abbrev SeenKey := List PObj × PObj

/-- A memo value: (`(ip_count, line_count)`, frozenset of derived formulas). -/
abbrev SeenVal := (Nat × Nat) × List PObj

/-- The memo dictionary `self.seen`. -/
abbrev Seen := List (SeenKey × SeenVal)

/-- Boolean subset test between formula lists with set semantics. -/
def subsetB (a b : List PObj) : Bool :=
  a.all (fun x => decide (x ∈ b))

/-- `frozenset` equality. -/
def setEqB (a b : List PObj) : Bool :=
  subsetB a b && subsetB b a

/-- `frozenset` strict subset (`<`). -/
def ssubsetB (a b : List PObj) : Bool :=
  subsetB a b && !subsetB b a

/-- Key equality: frozensets compare as sets, goals structurally. -/
def keyEqB (k k' : SeenKey) : Bool :=
  setEqB k.1 k'.1 && k.2 = k'.2

/-- `self.seen.get(key)`. -/
def seenGet (seen : Seen) (k : SeenKey) : Option SeenVal :=
  match seen with
  | [] => none
  | (k', v) :: rest => if keyEqB k k' then some v else seenGet rest k

/-- `self.seen[key] = v`: replace the entry for the key, else insert. -/
def seenPut (seen : Seen) (k : SeenKey) (v : SeenVal) : Seen :=
  match seen with
  | [] => [(k, v)]
  | (k', v') :: rest =>
      if keyEqB k k' then (k, v) :: rest else (k', v') :: seenPut rest k v

/--
`Prover._enter_state` from `prover.py`: memo key is
(frozen assumption set, goal); on a dominated re-entry (current cost `≥`
stored lexicographically and current derived set `⊆` stored) return `False`
without touching the table; otherwise store the lexicographically smaller
cost and, when the current derived set is a strict subset of the stored one,
keep the stored set, else the current one, then return `True`.
-/
def enter_state (proof : Prf) (seen : Seen) : Bool × Seen :=
  let key : SeenKey := (proof.assumptions, proof.goal)
  let cost := (proof.ipCount, proof.lineCount)
  let formulas := proof.formulas
  match seenGet seen key with
  | none => (true, seenPut seen key (cost, formulas))
  | some (prevCost, prevFormulas) =>
      if costLe prevCost cost && subsetB formulas prevFormulas then
        (false, seen)
      else
        let cost' := if costLt prevCost cost then prevCost else cost
        let formulas' :=
          if ssubsetB formulas prevFormulas then prevFormulas else formulas
        (true, seenPut seen key (cost', formulas'))

/-! ### The recursive search (`Prover`, `Eliminator`, `Introducer`) -/

/-- Outcome of a computation that can raise `TimeoutError`; the raised
exception leaves the global id/tick state behind, so it is carried along. -/
inductive TR (α : Type) where
  | ok (a : α)
  | timeout (st : St)

/-- Sequencing with `TimeoutError` propagation (`none` = out of fuel). -/
def mbind {α β : Type} (x : Option (TR α)) (f : α → Option (TR β)) :
    Option (TR β) :=
  match x with
  | none => none
  | some (.timeout st) => some (.timeout st)
  | some (.ok a) => f a

/-- The per-search fixed context: the monotonic clock (indexed by read
count), the deadline of `Prover.deadline`, and the `complete` mode flag. -/
structure Ctx where
  clock : Nat → Nat
  deadline : Option Nat
  complete : Bool

/-- The deadline test at the top of `Prover.prove`:
`self.deadline is not None and time.monotonic() >= self.deadline` — the
clock is read (one tick) only when a deadline is set. -/
def deadlineHit (ctx : Ctx) (st : St) : Bool × St :=
  match ctx.deadline with
  | none => (false, st)
  | some d => (decide (ctx.clock st.tick ≥ d), { st with tick := st.tick + 1 })

/-- `o` is a line whose formula equals `f`. -/
def lineWithFormula (f : PObj) (o : PO) : Bool :=
  match o with
  | .line _ g _ _ => g = f
  | _ => false

/-- `Eliminator.R`: succeed silently when the last object is already a
non-assumption line deriving the goal, otherwise reiterate the first line
carrying the goal. -/
def elimR (proof : Prf) (st : St) : Bool × Prf × St :=
  let tailOk :=
    match proof.seq.getLast? with
    | some (.line _ f r _) => f = proof.goal && !isAssumptionRule r
    | _ => false
  if tailOk then (true, proof, st)
  else
    match proof.seq.find? (lineWithFormula proof.goal) with
    | some obj =>
        let (ln, st) := mkLine st proof.goal "R" [obj.poId]
        (true, proof.add [ln], st)
    | none => (false, proof, st)

/-- `Eliminator.X`: from any line deriving `⊥`, conclude the goal. -/
def elimX (proof : Prf) (st : St) : Bool × Prf × St :=
  match proof.seq.find? (lineWithFormula .bot) with
  | some obj =>
      let (ln, st) := mkLine st proof.goal "X" [obj.poId]
      (true, proof.add [ln], st)
  | none => (false, proof, st)

/-- `Eliminator.NotE`: first `¬α` line with an `α` line derives `⊥`. -/
def elimNotE (proof : Prf) (st : St) : Bool × Prf × St :=
  let found := proof.seq.findSome? (fun o =>
    match o with
    | .line oid (.not_ inner) _ _ =>
        match proof.seq.find? (lineWithFormula inner) with
        | some o2 => some (oid, o2.poId)
        | none => none
    | _ => none)
  match found with
  | some (i, j) =>
      let (ln, st) := mkLine st .bot "¬E" [i, j]
      (true, proof.add [ln], st)
  | none => (false, proof, st)

/-- `Eliminator.AndE`: split the first conjunction one of whose conjuncts is
not yet derived. -/
def elimAndE (proof : Prf) (st : St) : Bool × Prf × St :=
  let fs := proof.formulas
  let found := proof.seq.findSome? (fun o =>
    match o with
    | .line oid (.and_ l r) _ _ =>
        if l ∉ fs then some (l, oid)
        else if r ∉ fs then some (r, oid)
        else none
    | _ => none)
  match found with
  | some (c, i) =>
      let (ln, st) := mkLine st c "∧E" [i]
      (true, proof.add [ln], st)
  | none => (false, proof, st)

/-- `Eliminator.ImpE`: modus ponens on the first implication whose
consequent is not yet derived and whose antecedent is on a line. -/
def elimImpE (proof : Prf) (st : St) : Bool × Prf × St :=
  let fs := proof.formulas
  let found := proof.seq.findSome? (fun o =>
    match o with
    | .line oid (.imp l r) _ _ =>
        if r ∈ fs then none
        else
          match proof.seq.find? (lineWithFormula l) with
          | some o2 => some (r, oid, o2.poId)
          | none => none
    | _ => none)
  match found with
  | some (c, i, j) =>
      let (ln, st) := mkLine st c "→E" [i, j]
      (true, proof.add [ln], st)
  | none => (false, proof, st)

/-- `Eliminator.IffE`: from a biconditional with exactly one side derived,
derive the other. -/
def elimIffE (proof : Prf) (st : St) : Bool × Prf × St :=
  let fs := proof.formulas
  let found := proof.seq.findSome? (fun o =>
    match o with
    | .line oid (.iff_ l r) _ _ =>
        let hl := l ∈ fs
        let hr := r ∈ fs
        if hl && !hr then
          (proof.seq.find? (lineWithFormula l)).map (fun o2 => (r, oid, o2.poId))
        else if hr && !hl then
          (proof.seq.find? (lineWithFormula r)).map (fun o2 => (l, oid, o2.poId))
        else none
    | _ => none)
  match found with
  | some (c, i, j) =>
      let (ln, st) := mkLine st c "↔E" [i, j]
      (true, proof.add [ln], st)
  | none => (false, proof, st)

/-- `Eliminator.elim`: the non-branching saturation loop — `R`/`X` end it
with success; `¬E`/`∧E`/`→E`/`↔E` each re-run it; otherwise fail. -/
def elimLoop : Nat → Prf → St → Option (Bool × Prf × St)
  | 0, _, _ => none
  | fuel + 1, proof, st =>
      match elimR proof st with
      | (true, p, s) => some (true, p, s)
      | (false, p1, s1) =>
      match elimX p1 s1 with
      | (true, p, s) => some (true, p, s)
      | (false, p2, s2) =>
      match elimNotE p2 s2 with
      | (true, p, s) => elimLoop fuel p s
      | (false, p3, s3) =>
      match elimAndE p3 s3 with
      | (true, p, s) => elimLoop fuel p s
      | (false, p4, s4) =>
      match elimImpE p4 s4 with
      | (true, p, s) => elimLoop fuel p s
      | (false, p5, s5) =>
      match elimIffE p5 s5 with
      | (true, p, s) => elimLoop fuel p s
      | (false, p6, s6) => some (false, p6, s6)

/-- Embed a recursive `_Proof` back as a citable proof object. -/
def Prf.toPO (p : Prf) : PO :=
  .sub p.id p.seq p.goal

mutual
/--
`Prover.prove(self, complete)` from `prover.py`: deadline check (raises
`TimeoutError`), memo entry, elimination sweep, goal-directed introduction,
then the five branching strategies each run on a copy of the proof (sharing
the memo table), collecting successful branches (stopping at the first in
greedy mode) and committing the best.  Fuel decreases at every mutual call.
-/
def proverProve (ctx : Ctx) : Nat → Prf → Seen → St →
    Option (TR (Bool × Prf × Seen × St))
  | 0, _, _, _ => none
  | fuel + 1, proof, seen, st =>
      let (hit, st) := deadlineHit ctx st
      if hit then some (.timeout st)
      else
        let (ok, seen) := enter_state proof seen
        if !ok then some (.ok (false, proof, seen, st))
        else
          match elimLoop fuel proof st with
          | none => none
          | some (true, proof, st) => some (.ok (true, proof, seen, st))
          | some (false, proof, st) =>
              mbind (introDispatch ctx fuel proof seen st)
                fun (b, proof, seen, st) =>
              if b then some (.ok (true, proof, seen, st))
              else
                mbind (strategyLoop ctx fuel [1, 2, 3, 4, 5] proof [] seen st)
                  fun (branches, seen, st) =>
                let (b, proof) := commit_best_branch proof branches
                some (.ok (b, proof, seen, st))

/-- `Introducer.intro`: dispatch on the goal's principal connective. -/
def introDispatch (ctx : Ctx) : Nat → Prf → Seen → St →
    Option (TR (Bool × Prf × Seen × St))
  | 0, _, _, _ => none
  | fuel + 1, proof, seen, st =>
      match proof.goal with
      | .not_ inner => introNotI ctx fuel inner proof seen st
      | .and_ l r => introAndI ctx fuel l r proof seen st
      | .or_ l r => introOrI ctx fuel l r proof seen st
      | .imp l r => introImpI ctx fuel l r proof seen st
      | .iff_ l r => introIffI ctx fuel l r proof seen st
      | _ => some (.ok (false, proof, seen, st))

/-- `Introducer.NotI`: reuse or build a subproof `inner ⊢ ⊥`, then add the
`¬I` line. -/
def introNotI (ctx : Ctx) : Nat → PObj → Prf → Seen → St →
    Option (TR (Bool × Prf × Seen × St))
  | 0, _, _, _, _ => none
  | fuel + 1, inner, proof, seen, st =>
      match find_subproof proof.seq inner .bot with
      | some sp =>
          let (ln, st) := mkLine st proof.goal "¬I" [sp.poId]
          some (.ok (true, proof.add [ln], seen, st))
      | none =>
          let (asm, st) := mkLine st inner "AS" []
          let (sp, st) := mkPrf st (proof.seq ++ [asm]) .bot
          mbind (proverProve ctx fuel sp seen st) fun (b, sp, seen, st) =>
          if !b then some (.ok (false, proof, seen, st))
          else
            let sp := { sp with seq := sp.seq.drop proof.seq.length }
            let (ln, st) := mkLine st proof.goal "¬I" [sp.id]
            some (.ok (true, proof.add [sp.toPO, ln], seen, st))

/-- One ordered attempt of `Introducer.AndI`: prove `c1`, then `c2` on top,
pop trailing reiterations and add the `∧I` line; `none` when either side
fails. -/
def andIAttempt (ctx : Ctx) : Nat → PObj → PObj → PObj → Prf → Seen → St →
    Option (TR (Option Prf × Seen × St))
  | 0, _, _, _, _, _, _ => none
  | fuel + 1, c1, c2, goal, proof, seen, st =>
      let (branch1, st) := mkPrf st proof.seq c1
      mbind (proverProve ctx fuel branch1 seen st) fun (b1, branch1, seen, st) =>
      if !b1 then some (.ok (none, seen, st))
      else
        let (id1, branch1) := popReiteration branch1
        let (branch2, st) := mkPrf st branch1.seq c2
        mbind (proverProve ctx fuel branch2 seen st) fun (b2, branch2, seen, st) =>
        if !b2 then some (.ok (none, seen, st))
        else
          let (id2, branch2) := popReiteration branch2
          let (ln, st) := mkLine st goal "∧I" [id1, id2]
          some (.ok (some (branch2.add [ln]), seen, st))

/-- `Introducer.AndI`: try both conjunct orders (stopping at the first
success in greedy mode) and commit the best branch. -/
def introAndI (ctx : Ctx) : Nat → PObj → PObj → Prf → Seen → St →
    Option (TR (Bool × Prf × Seen × St))
  | 0, _, _, _, _, _ => none
  | fuel + 1, l, r, proof, seen, st =>
      mbind (andIAttempt ctx fuel l r proof.goal proof seen st)
        fun (o1, seen, st) =>
      if o1.isSome && !ctx.complete then
        let (b, proof) := commit_best_branch proof o1.toList
        some (.ok (b, proof, seen, st))
      else
        mbind (andIAttempt ctx fuel r l proof.goal proof seen st)
          fun (o2, seen, st) =>
        let (b, proof) := commit_best_branch proof (o1.toList ++ o2.toList)
        some (.ok (b, proof, seen, st))

/-- One guarded attempt of `Introducer.OrI` for a disjunct: only entered when
the disjunct is semantically entailed; on success the `∨I` line is added. -/
def orIAttempt (ctx : Ctx) : Nat → PObj → PObj → Prf → Seen → St →
    Option (TR (Option Prf × Seen × St))
  | 0, _, _, _, _, _ => none
  | fuel + 1, d, goal, proof, seen, st =>
      if is_valid proof.assumptions d then
        let (branch, st) := mkPrf st proof.seq d
        mbind (proverProve ctx fuel branch seen st) fun (b, branch, seen, st) =>
        if !b then some (.ok (none, seen, st))
        else
          let (did, branch) := popReiteration branch
          let (ln, st) := mkLine st goal "∨I" [did]
          some (.ok (some (branch.add [ln]), seen, st))
      else some (.ok (none, seen, st))

/-- `Introducer.OrI`: if a disjunct is already on a line, cite it directly;
otherwise try each semantically-entailed disjunct and commit the best. -/
def introOrI (ctx : Ctx) : Nat → PObj → PObj → Prf → Seen → St →
    Option (TR (Bool × Prf × Seen × St))
  | 0, _, _, _, _, _ => none
  | fuel + 1, l, r, proof, seen, st =>
      match proof.seq.find? (fun o =>
          match o with
          | .line _ f _ _ => f = l || f = r
          | _ => false) with
      | some obj =>
          let (ln, st) := mkLine st proof.goal "∨I" [obj.poId]
          some (.ok (true, proof.add [ln], seen, st))
      | none =>
          mbind (orIAttempt ctx fuel l proof.goal proof seen st)
            fun (o1, seen, st) =>
          if o1.isSome && !ctx.complete then
            let (b, proof) := commit_best_branch proof o1.toList
            some (.ok (b, proof, seen, st))
          else
            mbind (orIAttempt ctx fuel r proof.goal proof seen st)
              fun (o2, seen, st) =>
            let (b, proof) := commit_best_branch proof (o1.toList ++ o2.toList)
            some (.ok (b, proof, seen, st))

/-- `Introducer.ImpI`: reuse or build a subproof `left ⊢ right`, then add
the `→I` line. -/
def introImpI (ctx : Ctx) : Nat → PObj → PObj → Prf → Seen → St →
    Option (TR (Bool × Prf × Seen × St))
  | 0, _, _, _, _, _ => none
  | fuel + 1, l, r, proof, seen, st =>
      match find_subproof proof.seq l r with
      | some sp =>
          let (ln, st) := mkLine st proof.goal "→I" [sp.poId]
          some (.ok (true, proof.add [ln], seen, st))
      | none =>
          let (asm, st) := mkLine st l "AS" []
          let (sp, st) := mkPrf st (proof.seq ++ [asm]) r
          mbind (proverProve ctx fuel sp seen st) fun (b, sp, seen, st) =>
          if !b then some (.ok (false, proof, seen, st))
          else
            let sp := { sp with seq := sp.seq.drop proof.seq.length }
            let (ln, st) := mkLine st proof.goal "→I" [sp.id]
            some (.ok (true, proof.add [sp.toPO, ln], seen, st))

/-- `Introducer.IffI`: reuse or build `left ⊢ right`, then (on top of it)
`right ⊢ left`, then add the `↔I` line. -/
def introIffI (ctx : Ctx) : Nat → PObj → PObj → Prf → Seen → St →
    Option (TR (Bool × Prf × Seen × St))
  | 0, _, _, _, _, _ => none
  | fuel + 1, l, r, proof, seen, st =>
      let step2 := fun (objs : List PO) (sp1id : Nat) (seen : Seen) (st : St) =>
        let seq2 := proof.seq ++ objs
        match find_subproof seq2 r l with
        | some sp2 =>
            let (ln, st) := mkLine st proof.goal "↔I" [sp1id, sp2.poId]
            some (TR.ok (true, proof.add (objs ++ [ln]), seen, st))
        | none =>
            let (asm2, st) := mkLine st r "AS" []
            let (sp2, st) := mkPrf st (seq2 ++ [asm2]) l
            mbind (proverProve ctx fuel sp2 seen st) fun (b2, sp2, seen, st) =>
            if !b2 then some (.ok (false, proof, seen, st))
            else
              let sp2 := { sp2 with seq := sp2.seq.drop seq2.length }
              let (ln, st) := mkLine st proof.goal "↔I" [sp1id, sp2.id]
              some (.ok (true, proof.add (objs ++ [sp2.toPO, ln]), seen, st))
      match find_subproof proof.seq l r with
      | some sp1 => step2 [] sp1.poId seen st
      | none =>
          let (asm1, st) := mkLine st l "AS" []
          let (sp1, st) := mkPrf st (proof.seq ++ [asm1]) r
          mbind (proverProve ctx fuel sp1 seen st) fun (b1, sp1, seen, st) =>
          if !b1 then some (.ok (false, proof, seen, st))
          else
            let sp1 := { sp1 with seq := sp1.seq.drop proof.seq.length }
            step2 [sp1.toPO] sp1.id seen st

/-- `Introducer.IP`: guarded by satisfiability of the goal; reuse or build
`¬goal ⊢ ⊥`, then add the `IP` line. -/
def introIP (ctx : Ctx) : Nat → Prf → Seen → St →
    Option (TR (Bool × Prf × Seen × St))
  | 0, _, _, _ => none
  | fuel + 1, proof, seen, st =>
      if is_valid [proof.goal] .bot then some (.ok (false, proof, seen, st))
      else
        match find_subproof proof.seq (.not_ proof.goal) .bot with
        | some sp =>
            let (ln, st) := mkLine st proof.goal "IP" [sp.poId]
            some (.ok (true, proof.add [ln], seen, st))
        | none =>
            let (asm, st) := mkLine st (.not_ proof.goal) "AS" []
            let (sp, st) := mkPrf st (proof.seq ++ [asm]) .bot
            mbind (proverProve ctx fuel sp seen st) fun (b, sp, seen, st) =>
            if !b then some (.ok (false, proof, seen, st))
            else
              let sp := { sp with seq := sp.seq.drop proof.seq.length }
              let (ln, st) := mkLine st proof.goal "IP" [sp.id]
              some (.ok (true, proof.add [sp.toPO, ln], seen, st))

/-- The scan of `Eliminator.OrE` over the disjunction lines: for each, close
both disjunct subproofs (reusing matching ones; the second prover gets a
copy of the memo table), add the `∨E` line and collect the branch. -/
def orEGo (ctx : Ctx) : Nat → Prf → List PO → List Prf → Seen → St →
    Option (TR (List Prf × Seen × St))
  | 0, _, _, _, _, _ => none
  | fuel + 1, proof, scan, branches, seen, st =>
      match scan with
      | [] => some (.ok (branches, seen, st))
      | obj :: rest =>
          match obj with
          | .line oid (.or_ d1 d2) _ _ =>
              let step2 := fun (objs : List PO) (sp1id : Nat) (seen : Seen)
                  (st : St) =>
                let seq2 := proof.seq ++ objs
                let finish := fun (objs2 : List PO) (sp2id : Nat) (seen : Seen)
                    (st : St) =>
                  let (ln, st) := mkLine st proof.goal "∨E" [oid, sp1id, sp2id]
                  let (branch, st) := mkPrf st (proof.seq ++ objs2 ++ [ln])
                    proof.goal
                  if !ctx.complete then
                    some (TR.ok (branches ++ [branch], seen, st))
                  else orEGo ctx fuel proof rest (branches ++ [branch]) seen st
                match find_subproof seq2 d2 proof.goal with
                | some sp2 => finish objs sp2.poId seen st
                | none =>
                    let (asm2, st) := mkLine st d2 "AS" []
                    let (sp2, st) := mkPrf st (seq2 ++ [asm2]) proof.goal
                    mbind (proverProve ctx fuel sp2 seen st)
                      fun (b2, sp2, _seen2, st) =>
                    if !b2 then orEGo ctx fuel proof rest branches seen st
                    else
                      let sp2 := { sp2 with seq := sp2.seq.drop seq2.length }
                      finish (objs ++ [sp2.toPO]) sp2.id seen st
              match find_subproof proof.seq d1 proof.goal with
              | some sp1 => step2 [] sp1.poId seen st
              | none =>
                  let (asm1, st) := mkLine st d1 "AS" []
                  let (sp1, st) := mkPrf st (proof.seq ++ [asm1]) proof.goal
                  mbind (proverProve ctx fuel sp1 seen st)
                    fun (b1, sp1, seen, st) =>
                  if !b1 then orEGo ctx fuel proof rest branches seen st
                  else
                    let sp1 := { sp1 with seq := sp1.seq.drop proof.seq.length }
                    step2 [sp1.toPO] sp1.id seen st
          | _ => orEGo ctx fuel proof rest branches seen st

/-- `Eliminator.OrE`: collect branches over all disjunction lines and commit
the best. -/
def orE (ctx : Ctx) : Nat → Prf → Seen → St →
    Option (TR (Bool × Prf × Seen × St))
  | 0, _, _, _ => none
  | fuel + 1, proof, seen, st =>
      mbind (orEGo ctx fuel proof proof.seq [] seen st)
        fun (branches, seen, st) =>
      let (b, proof) := commit_best_branch proof branches
      some (.ok (b, proof, seen, st))

/-- The scan of `Eliminator.NotE_force` over the negation lines: prove the
negand in a branch; keep the branch when it changed the sequence. -/
def notEforceGo (ctx : Ctx) : Nat → Prf → List PO → List Prf → Seen → St →
    Option (TR (List Prf × Seen × St))
  | 0, _, _, _, _, _ => none
  | fuel + 1, proof, scan, branches, seen, st =>
      match scan with
      | [] => some (.ok (branches, seen, st))
      | obj :: rest =>
          match obj with
          | .line _ (.not_ inner) _ _ =>
              let (branch, st) := mkPrf st proof.seq inner
              mbind (proverProve ctx fuel branch seen st)
                fun (b, branch, seen, st) =>
              if !b then notEforceGo ctx fuel proof rest branches seen st
              else
                let (_, branch) := popReiteration branch
                if !poSeqEqB branch.seq proof.seq then
                  if !ctx.complete then
                    some (.ok (branches ++ [branch], seen, st))
                  else notEforceGo ctx fuel proof rest (branches ++ [branch])
                    seen st
                else notEforceGo ctx fuel proof rest branches seen st
          | _ => notEforceGo ctx fuel proof rest branches seen st

/-- `Eliminator.NotE_force`: only when the assumptions are contradictory;
collect branches proving negands and commit the best. -/
def notEforce (ctx : Ctx) : Nat → Prf → Seen → St →
    Option (TR (Bool × Prf × Seen × St))
  | 0, _, _, _ => none
  | fuel + 1, proof, seen, st =>
      if !is_valid proof.assumptions .bot then
        some (.ok (false, proof, seen, st))
      else
        mbind (notEforceGo ctx fuel proof proof.seq [] seen st)
          fun (branches, seen, st) =>
        let (b, proof) := commit_best_branch proof branches
        some (.ok (b, proof, seen, st))

/-- `Eliminator.ImpE_force`: for the first implication whose consequent is
missing and whose antecedent is semantically entailed, prove the antecedent
and install the extended sequence. -/
def impEforceGo (ctx : Ctx) : Nat → Prf → List PO → Seen → St →
    Option (TR (Bool × Prf × Seen × St))
  | 0, _, _, _, _ => none
  | fuel + 1, proof, scan, seen, st =>
      match scan with
      | [] => some (.ok (false, proof, seen, st))
      | obj :: rest =>
          match obj with
          | .line _ (.imp l r) _ _ =>
              if r ∈ proof.formulas then impEforceGo ctx fuel proof rest seen st
              else if is_valid proof.assumptions l then
                let (branch, st) := mkPrf st proof.seq l
                mbind (proverProve ctx fuel branch seen st)
                  fun (b, branch, seen, st) =>
                if b then
                  let (_, branch) := popReiteration branch
                  if !poSeqEqB branch.seq proof.seq then
                    some (.ok (true, { proof with seq := branch.seq }, seen, st))
                  else impEforceGo ctx fuel proof rest seen st
                else impEforceGo ctx fuel proof rest seen st
              else impEforceGo ctx fuel proof rest seen st
          | _ => impEforceGo ctx fuel proof rest seen st

/-- `Eliminator.IffE_force`: for each biconditional with neither side
derived but a semantically-entailed left side, prove each side in a branch
(both provers get copies of the memo table) and commit the best. -/
def iffEforceGo (ctx : Ctx) : Nat → Prf → List PO → Seen → St →
    Option (TR (Bool × Prf × Seen × St))
  | 0, _, _, _, _ => none
  | fuel + 1, proof, scan, seen, st =>
      match scan with
      | [] => some (.ok (false, proof, seen, st))
      | obj :: rest =>
          match obj with
          | .line _ (.iff_ l r) _ _ =>
              if l ∈ proof.formulas ∨ r ∈ proof.formulas then
                iffEforceGo ctx fuel proof rest seen st
              else if !is_valid proof.assumptions l then
                iffEforceGo ctx fuel proof rest seen st
              else
                let (branchL, st) := mkPrf st proof.seq l
                mbind (proverProve ctx fuel branchL seen st)
                  fun (bL, branchL, _seenL, st) =>
                let keptL : Option Prf :=
                  if bL then
                    if !poSeqEqB (popReiteration branchL).2.seq proof.seq then
                      some (popReiteration branchL).2
                    else none
                  else none
                if keptL.isSome && !ctx.complete then
                  let (b, proof') := commit_best_branch proof keptL.toList
                  if b then some (.ok (true, proof', seen, st))
                  else iffEforceGo ctx fuel proof rest seen st
                else
                  let (branchR, st) := mkPrf st proof.seq r
                  mbind (proverProve ctx fuel branchR seen st)
                    fun (bR, branchR, _seenR, st) =>
                  let keptR : Option Prf :=
                    if bR then
                      if !poSeqEqB (popReiteration branchR).2.seq proof.seq then
                        some (popReiteration branchR).2
                      else none
                    else none
                  let (b, proof') :=
                    commit_best_branch proof (keptL.toList ++ keptR.toList)
                  if b then some (.ok (true, proof', seen, st))
                  else iffEforceGo ctx fuel proof rest seen st
          | _ => iffEforceGo ctx fuel proof rest seen st

/-- One entry of the `strategies` tuple in `Prover.prove`: the three forcing
strategies chain into a recursive `p.prove(complete)`; `∨E` and `IP` stand
alone. -/
def runStrategy (ctx : Ctx) : Nat → Nat → Prf → Seen → St →
    Option (TR (Bool × Prf × Seen × St))
  | 0, _, _, _, _ => none
  | fuel + 1, i, pprf, seen, st =>
      match i with
      | 1 =>
          mbind (notEforce ctx fuel pprf seen st) fun (b, pprf, seen, st) =>
          if b then proverProve ctx fuel pprf seen st
          else some (.ok (false, pprf, seen, st))
      | 2 =>
          mbind (impEforceGo ctx fuel pprf pprf.seq seen st)
            fun (b, pprf, seen, st) =>
          if b then proverProve ctx fuel pprf seen st
          else some (.ok (false, pprf, seen, st))
      | 3 =>
          mbind (iffEforceGo ctx fuel pprf pprf.seq seen st)
            fun (b, pprf, seen, st) =>
          if b then proverProve ctx fuel pprf seen st
          else some (.ok (false, pprf, seen, st))
      | 4 => orE ctx fuel pprf seen st
      | _ => introIP ctx fuel pprf seen st

/-- The strategy loop of `Prover.prove`: each strategy runs on a fresh copy
of the proof (`Prover.copy` shares the memo table), successful branch proofs
are collected in order, and greedy mode stops at the first success. -/
def strategyLoop (ctx : Ctx) : Nat → List Nat → Prf → List Prf → Seen → St →
    Option (TR (List Prf × Seen × St))
  | 0, _, _, _, _, _ => none
  | fuel + 1, idxs, proof, branches, seen, st =>
      match idxs with
      | [] => some (.ok (branches, seen, st))
      | i :: rest =>
          let (pprf, st) := mkPrf st proof.seq proof.goal
          mbind (runStrategy ctx fuel i pprf seen st)
            fun (b, pprf, seen, st) =>
          if b then
            if !ctx.complete then some (.ok (branches ++ [pprf], seen, st))
            else strategyLoop ctx fuel rest proof (branches ++ [pprf]) seen st
          else strategyLoop ctx fuel rest proof branches seen st
end

/-! ### Top-level `prove` (`prover.py`) -/

mutual
/-- The `_str` renderer of `syntax.py` (used in the countermodel listing). -/
def pstr : PObj → String
  | .bot => "⊥"
  | .not_ a => "¬" ++ pstr a
  | .and_ a b => "(" ++ pstr a ++ " ∧ " ++ pstr b ++ ")"
  | .or_ a b => "(" ++ pstr a ++ " ∨ " ++ pstr b ++ ")"
  | .imp a b => "(" ++ pstr a ++ " → " ++ pstr b ++ ")"
  | .iff_ a b => "(" ++ pstr a ++ " ↔ " ++ pstr b ++ ")"
  | .func n args =>
      if args.isEmpty then n else n ++ "(" ++ pstrArgs args ++ ")"
  | .var n => n
  | .pred n args =>
      if args.isEmpty then n else n ++ "(" ++ pstrArgs args ++ ")"
  | .eq a b => pstr a ++ " = " ++ pstr b
  | .all v a => "∀" ++ pstr v ++ " " ++ pstr a
  | .ex v a => "∃" ++ pstr v ++ " " ++ pstr a
  | .box a => "☐" ++ pstr a
  | .dia a => "◇" ++ pstr a
  | .mvar m => "?m" ++ toString m
  | .boxMarker => "☐"

/-- Comma-joined argument rendering. -/
def pstrArgs : PList → String
  | .nil => ""
  | .cons a .nil => pstr a
  | .cons a as => pstr a ++ ", " ++ pstrArgs as
end

/-- The countermodel listing of `prove`:
`"\n".join(f"{k} : {v}" for k, v in ...)` (Python booleans render as
`True`/`False`; the enumeration order of the modelled countermodel is used). -/
def cmStr (cm : List (PObj × Bool)) : String :=
  String.intercalate "\n"
    (cm.map (fun q => pstr q.1 ++ " : " ++ (if q.2 then "True" else "False")))

/-- Structured outcome of top-level `prove`: `ProverError` with the
countermodel, `ProverError` after both searches fail, or the found proof. -/
inductive ProveOut where
  | invalidArg (cm : List (PObj × Bool))
  | noProofFound
  | proved (prf : Prf)

/-- The `ProverError` message carried by each failing outcome. -/
def proverErrorMsg : ProveOut → Option String
  | .invalidArg cm => some ("Invalid argument. Countermodel:\n\n" ++ cmStr cm)
  | .noProofFound => some "Argument is valid, but no proof was found."
  | .proved _ => none

/-- The premise lines `[_Line(p, "PR", ()) for p in premises]` of `prove`. -/
def prove_setup (st : St) (premises : List PObj) : List PO × St :=
  premises.foldl (fun (acc : List PO × St) p =>
    let (ln, st) := mkLine acc.2 p "PR" []
    (acc.1 ++ [ln], st)) ([], st)

/-- The fallback attempt of `prove`: a fresh `_Proof` over the premise lines,
a `Prover` with a fresh memo table and no deadline, run greedily
(`complete=False`); its failure raises
`"Argument is valid, but no proof was found."`. -/
def greedyFallback (clock : Nat → Nat) (fuel : Nat) (seq : List PO)
    (conclusion : PObj) (st : St) : Option ProveOut :=
  let pr := mkPrf st seq conclusion
  match proverProve ⟨clock, none, false⟩ fuel pr.1 [] pr.2 with
  | none => none
  | some (.timeout _) => none
  | some (.ok (true, prf2, _, _)) => some (ProveOut.proved prf2)
  | some (.ok (false, _, _, _)) => some ProveOut.noProofFound

/--
`prove(premises, conclusion, timeout=3)` from `prover.py`: the countermodel
gate, then a complete-mode search under the deadline
`time.monotonic() + timeout`, falling back — on timeout or failure — to the
single greedy attempt `greedyFallback`.  (Post-processing of the found proof
is modelled separately by `Processor`.)
-/
def prove_top (clock : Nat → Nat) (timeout : Nat) (fuel : Nat) (st : St)
    (premises : List PObj) (conclusion : PObj) : Option ProveOut :=
  match countermodel premises conclusion with
  | some cm => some (.invalidArg cm)
  | none =>
      let ps := prove_setup st premises
      let pr := mkPrf ps.2 ps.1 conclusion
      let now := clock pr.2.tick
      let st1 : St := { pr.2 with tick := pr.2.tick + 1 }
      match proverProve ⟨clock, some (now + timeout), true⟩ fuel pr.1 [] st1 with
      | none => none
      | some (.timeout st) => greedyFallback clock fuel ps.1 conclusion st
      | some (.ok (true, prf1, _, _)) => some (.proved prf1)
      | some (.ok (false, _, _, st)) => greedyFallback clock fuel ps.1 conclusion st

/-- `greedyFallback` can only report a proof or the no-proof error. -/
theorem greedyFallback_ne_invalid (clock : Nat → Nat) (fuel : Nat)
    (seq : List PO) (χ : PObj) (st : St) (cm : List (PObj × Bool)) :
    greedyFallback clock fuel seq χ st ≠ some (.invalidArg cm) := by
  unfold greedyFallback
  dsimp only
  split <;> simp

/--
C3.  `prove` raises the `ProverError` whose message begins
`"Invalid argument. Countermodel:"` exactly when `countermodel(Γ, χ)`
returns an assignment — which then satisfies every premise and falsifies the
conclusion — and in that case the result does not depend on the search at
all (the same error is produced with zero search fuel).
-/
theorem prove_countermodel_gate (clock : Nat → Nat) (timeout fuel : Nat)
    (st : St) (Γ : List PObj) (χ : PObj) :
    (∀ cm, countermodel Γ χ = some cm →
        prove_top clock timeout fuel st Γ χ = some (.invalidArg cm)
        ∧ prove_top clock timeout 0 st Γ χ = some (.invalidArg cm)
        ∧ (∀ p ∈ Γ, evaluate (lookupB cm) p = true)
        ∧ evaluate (lookupB cm) χ = false
        ∧ proverErrorMsg (.invalidArg cm)
            = some ("Invalid argument. Countermodel:" ++ ("\n\n" ++ cmStr cm)))
    ∧ (countermodel Γ χ = none →
        ∀ cm', prove_top clock timeout fuel st Γ χ ≠ some (.invalidArg cm')) := by
  constructor
  · intro cm hcm
    refine ⟨?_, ?_, ?_, ?_, ?_⟩
    · unfold prove_top; rw [hcm]
    · unfold prove_top; rw [hcm]
    · intro p hp
      simp only [countermodel] at hcm
      have h := List.find?_some hcm
      simp only [Bool.and_eq_true, List.all_eq_true] at h
      exact h.1 p hp
    · simp only [countermodel] at hcm
      have h := List.find?_some hcm
      simp only [Bool.and_eq_true, List.all_eq_true, Bool.not_eq_true'] at h
      exact h.2
    · show some _ = some _
      rw [← String.append_assoc]
      rfl
  · intro hnone cm'
    unfold prove_top
    rw [hnone]
    dsimp only
    split
    · simp
    · exact greedyFallback_ne_invalid _ _ _ _ _ _
    · simp
    · exact greedyFallback_ne_invalid _ _ _ _ _ _

/-- Witness for C3 at `Γ = [A], χ = B`: the countermodel `A:true, B:false`
exists, `prove` reports it, and the search is never consulted. -/
theorem prove_countermodel_gate_witness :
    countermodel [.pred "A" .nil] (.pred "B" .nil)
        = some [(.pred "A" .nil, true), (.pred "B" .nil, false)]
    ∧ prove_top (fun _ => 0) 3 7 ⟨0, 0⟩ [.pred "A" .nil] (.pred "B" .nil)
        = some (.invalidArg [(.pred "A" .nil, true), (.pred "B" .nil, false)]) := by
  refine ⟨by decide, ?_⟩
  exact ((prove_countermodel_gate (fun _ => 0) 3 7 ⟨0, 0⟩ [.pred "A" .nil]
    (.pred "B" .nil)).1 _ (by decide)).1

/--
C4.  Retry logic of `prove`: (1) every entry of `Prover.prove` with a set
deadline reads the monotonic clock and raises `TimeoutError` the moment it
is past the deadline; (2) the greedy fallback (fresh proof, fresh memo, no
deadline, `complete=False`) yields the error
`"Argument is valid, but no proof was found."` exactly when its single
search returns `False`; (3) `prove` produces that error exactly when the
countermodel gate passes, the complete-mode attempt under the deadline
`clock + timeout` either times out or fails, and the greedy fallback then
fails.
-/
theorem prove_retry_logic :
    (∀ (ctx : Ctx) (fuel : Nat) (proof : Prf) (seen : Seen) (st : St) (d : Nat),
        ctx.deadline = some d → ctx.clock st.tick ≥ d →
        proverProve ctx (fuel + 1) proof seen st
          = some (.timeout { st with tick := st.tick + 1 }))
    ∧ (∀ (clock : Nat → Nat) (fuel : Nat) (seq : List PO) (χ : PObj) (st : St),
        greedyFallback clock fuel seq χ st = some .noProofFound ↔
          ∃ prf' seen' st',
            proverProve ⟨clock, none, false⟩ fuel (mkPrf st seq χ).1 []
                (mkPrf st seq χ).2 = some (.ok (false, prf', seen', st')))
    ∧ (∀ (clock : Nat → Nat) (timeout fuel : Nat) (st : St) (Γ : List PObj)
          (χ : PObj),
        let ps := prove_setup st Γ
        let pr := mkPrf ps.2 ps.1 χ
        let st1 : St := { pr.2 with tick := pr.2.tick + 1 }
        let ctx1 : Ctx := ⟨clock, some (clock pr.2.tick + timeout), true⟩
        (prove_top clock timeout fuel st Γ χ = some .noProofFound ↔
          countermodel Γ χ = none ∧
          ∃ st',
            (proverProve ctx1 fuel pr.1 [] st1 = some (.timeout st')
              ∨ ∃ prf1 seen1, proverProve ctx1 fuel pr.1 [] st1
                  = some (.ok (false, prf1, seen1, st')))
            ∧ greedyFallback clock fuel ps.1 χ st' = some .noProofFound)) := by
  refine ⟨?_, ?_, ?_⟩
  · intro ctx fuel proof seen st d hdl hclk
    obtain ⟨cl, dl, cmp⟩ := ctx
    simp only at hdl hclk
    subst hdl
    simp [proverProve, deadlineHit, hclk]
  · intro clock fuel seq χ st
    constructor
    · intro h
      unfold greedyFallback at h
      dsimp only at h
      split at h
      · exact absurd h (by simp)
      · exact absurd h (by simp)
      · exact absurd h (by simp)
      · next prf' seen' st' heq => exact ⟨prf', seen', st', heq⟩
    · rintro ⟨prf', seen', st', heq⟩
      unfold greedyFallback
      dsimp only
      rw [heq]
  · intro clock timeout fuel st Γ χ
    dsimp only
    cases hcm : countermodel Γ χ with
    | some cm => simp [prove_top, hcm]
    | none =>
      constructor
      · intro h
        unfold prove_top at h
        rw [hcm] at h
        dsimp only at h
        split at h
        · exact absurd h (by simp)
        · next st' heq => exact ⟨rfl, st', Or.inl heq, h⟩
        · exact absurd h (by simp)
        · next prf1 seen1 st' heq =>
            exact ⟨rfl, st', Or.inr ⟨prf1, seen1, heq⟩, h⟩
      · rintro ⟨-, st', hor, hfb⟩
        unfold prove_top
        rw [hcm]
        dsimp only
        rcases hor with heq | ⟨prf1, seen1, heq⟩ <;> rw [heq] <;> exact hfb

/-- Witness for C4: with the clock already past the deadline, the very first
entry of `Prover.prove` raises the timeout. -/
theorem prove_retry_logic_witness :
    proverProve ⟨fun _ => 10, some 5, true⟩ 1 ⟨1, [], .bot⟩ [] ⟨0, 0⟩
      = some (.timeout ⟨0, 1⟩) :=
  prove_retry_logic.1 ⟨fun _ => 10, some 5, true⟩ 0 ⟨1, [], .bot⟩ [] ⟨0, 0⟩ 5
    rfl (by decide)

theorem subsetB_refl (a : List PObj) : subsetB a a = true := by
  simp [subsetB]

theorem keyEqB_refl (k : SeenKey) : keyEqB k k = true := by
  simp [keyEqB, setEqB, subsetB_refl]

/-- Reading back a freshly stored memo entry. -/
theorem seenGet_put (seen : Seen) (k : SeenKey) (v : SeenVal) :
    seenGet (seenPut seen k v) k = some v := by
  induction seen with
  | nil => simp [seenPut, seenGet, keyEqB_refl]
  | cons e rest ih =>
    obtain ⟨k', v'⟩ := e
    by_cases h : keyEqB k k' = true
    · simp [seenPut, seenGet, h, keyEqB_refl]
    · simp [seenPut, seenGet, h, ih]

/--
C5 counterexample.  With stored entry `((0,1), {B})` and a re-entry carrying
cost `(0,1)` and derived set `{A}` (⊆-incomparable with `{B}`), the search
proceeds but the updated entry is `((0,1), {A})`: the stored formula `B` is
dropped, so the new entry is not the pointwise best (no upper bound) of the
old and new values.
-/
theorem enter_state_not_pointwise_best :
    (enter_state ⟨1, [.line 2 (.pred "A" .nil) "PR" []], .bot⟩
        [(([.pred "A" .nil], .bot), ((0, 1), [.pred "B" .nil]))]).1 = true
    ∧ seenGet (enter_state ⟨1, [.line 2 (.pred "A" .nil) "PR" []], .bot⟩
          [(([.pred "A" .nil], .bot), ((0, 1), [.pred "B" .nil]))]).2
        ([.pred "A" .nil], .bot) = some ((0, 1), [.pred "A" .nil])
    ∧ subsetB [.pred "B" .nil] [.pred "A" .nil] = false := by
  decide

/--
C5 amended.  `_enter_state` keys the table on (frozenset of assumption
formulas, goal) with value `((ip_count, line_count), derived set)`; it
returns failure exactly when a stored entry lexicographically-≤-dominates
the current cost and ⊇-contains the current derived set — leaving the table
untouched — and otherwise stores the lexicographically smaller of the two
costs together with the stored set when the current one is a strict subset
of it and the current set otherwise, before letting the search proceed.
-/
theorem enter_state_spec (proof : Prf) (seen : Seen) :
    let key : SeenKey := (proof.assumptions, proof.goal)
    let cost := (proof.ipCount, proof.lineCount)
    let fs := proof.formulas
    ((enter_state proof seen).1 = false ↔
       ∃ pv, seenGet seen key = some pv ∧ costLe pv.1 cost = true
          ∧ subsetB fs pv.2 = true)
    ∧ ((enter_state proof seen).1 = false → (enter_state proof seen).2 = seen)
    ∧ (seenGet seen key = none →
        enter_state proof seen = (true, seenPut seen key (cost, fs)))
    ∧ (∀ pv, seenGet seen key = some pv →
        ¬(costLe pv.1 cost = true ∧ subsetB fs pv.2 = true) →
        enter_state proof seen = (true, seenPut seen key
          ((if costLt pv.1 cost then pv.1 else cost),
           (if ssubsetB fs pv.2 then pv.2 else fs)))) := by
  dsimp only
  cases hg : seenGet seen (proof.assumptions, proof.goal) with
  | none =>
    refine ⟨?_, ?_, ?_, ?_⟩
    · simp [enter_state, hg]
    · simp [enter_state, hg]
    · intro _; simp [enter_state, hg]
    · intro pv hpv; exact absurd hpv (by simp)
  | some pv =>
    obtain ⟨pc, pf⟩ := pv
    by_cases hdom : costLe pc (proof.ipCount, proof.lineCount) = true
        ∧ subsetB proof.formulas pf = true
    · refine ⟨?_, ?_, ?_, ?_⟩
      · simp [enter_state, hg, hdom.1, hdom.2]
      · simp [enter_state, hg, hdom.1, hdom.2]
      · intro h; exact absurd h (by simp)
      · intro pv' hpv' hnd
        cases hpv'
        exact absurd hdom hnd
    · have hb : (costLe pc (proof.ipCount, proof.lineCount)
          && subsetB proof.formulas pf) = false := by
        rcases Decidable.not_and_iff_or_not.mp hdom with h | h <;>
          simp [Bool.eq_false_iff.mpr h]
      refine ⟨?_, ?_, ?_, ?_⟩
      · simp only [enter_state, hg, hb]
        constructor
        · intro h; exact absurd h (by simp)
        · rintro ⟨pv', hpv', h1, h2⟩
          cases hpv'
          exact absurd ⟨h1, h2⟩ hdom
      · intro h
        simp only [enter_state, hg, hb] at h
        exact absurd h (by simp)
      · intro h; exact absurd h (by simp)
      · intro pv' hpv' _
        cases hpv'
        simp only [enter_state, hg, hb]
        simp

/-- Witness for C5 (amended): a first entry is stored verbatim. -/
theorem enter_state_spec_witness :
    enter_state ⟨1, [], .bot⟩ []
      = (true, [((([] : List PObj), PObj.bot), ((0, 0), ([] : List PObj)))]) :=
  (enter_state_spec ⟨1, [], .bot⟩ []).2.2.1 rfl

theorem costLe_refl (a : Nat × Nat) : costLe a a = true := by
  simp [costLe]

theorem costLt_le {a b : Nat × Nat} (h : costLt a b = true) :
    costLe a b = true := by
  simp [costLt] at h
  simp [costLe]
  omega

theorem costLt_false_le {a b : Nat × Nat} (h : costLt a b = false) :
    costLe b a = true := by
  simp [costLt] at h
  simp [costLe]
  omega

theorem costLe_trans {a b c : Nat × Nat} (h1 : costLe a b = true)
    (h2 : costLe b c = true) : costLe a c = true := by
  simp [costLe] at *
  omega

/-- The fold inside `commit_best_branch` is Python `min`: it lands on an
element of the candidate list that is `≤` (lexicographically) every
candidate. -/
theorem commit_fold_min (b : Prf) (bs : List Prf) :
    let best := bs.foldl
      (fun acc q => if costLt (pKey q) (pKey acc) then q else acc) b
    (best = b ∨ best ∈ bs) ∧ costLe (pKey best) (pKey b) = true
      ∧ ∀ q ∈ bs, costLe (pKey best) (pKey q) = true := by
  induction bs generalizing b with
  | nil => simp [costLe_refl]
  | cons q qs ih =>
    dsimp only [List.foldl]
    by_cases h : costLt (pKey q) (pKey b) = true
    · rw [if_pos h]
      obtain ⟨hmem, hle, hall⟩ := ih q
      refine ⟨?_, ?_, ?_⟩
      · rcases hmem with h' | h' <;> simp [h']
      · exact costLe_trans hle (costLt_le h)
      · intro r hr
        rcases List.mem_cons.mp hr with h9 | hr9
        · rw [h9]
          exact hle
        · exact hall r hr9
    · rw [if_neg h]
      obtain ⟨hmem, hle, hall⟩ := ih b
      refine ⟨?_, ?_, ?_⟩
      · rcases hmem with h' | h' <;> simp [h']
      · exact hle
      · intro r hr
        rcases List.mem_cons.mp hr with h9 | hr9
        · rw [h9]
          exact costLe_trans hle (costLt_false_le (Bool.eq_false_iff.mpr h))
        · exact hall r hr9

/-- Inversion for sequencing that ends in a normal result. -/
theorem mbind_ok {α β : Type} {x : Option (TR α)} {f : α → Option (TR β)}
    {out : β} (h : mbind x f = some (.ok out)) :
    ∃ a, x = some (.ok a) ∧ f a = some (.ok out) := by
  rcases x with _ | a
  · simp [mbind] at h
  · cases a with
    | timeout st => simp [mbind] at h
    | ok a => exact ⟨a, rfl, h⟩

/-- The strategy loop only ever appends to the collected branch list. -/
theorem strategyLoop_collects (ctx : Ctx) : ∀ (fuel : Nat) (idxs : List Nat)
    (proof : Prf) (branches : List Prf) (seen : Seen) (st : St)
    (out : List Prf × Seen × St),
    strategyLoop ctx fuel idxs proof branches seen st = some (.ok out) →
    ∃ extra, out.1 = branches ++ extra := by
  intro fuel
  induction fuel with
  | zero => intro idxs proof branches seen st out h; simp [strategyLoop] at h
  | succ fuel ih =>
    intro idxs proof branches seen st out h
    cases idxs with
    | nil =>
      simp only [strategyLoop] at h
      cases h
      exact ⟨[], by simp⟩
    | cons i rest =>
      simp only [strategyLoop] at h
      obtain ⟨⟨b, pprf, seen', st'⟩, hrun, hk⟩ := mbind_ok h
      by_cases hb : b = true
      · subst hb
        simp only [if_true] at hk
        by_cases hc : ctx.complete = true
        · simp only [hc, Bool.not_true, Bool.false_eq_true, if_false] at hk
          obtain ⟨extra, hex⟩ := ih rest proof (branches ++ [pprf]) seen' st' out hk
          exact ⟨[pprf] ++ extra, by simp [hex]⟩
        · have hc' : ctx.complete = false := by
            cases hcc : ctx.complete
            · rfl
            · exact absurd hcc hc
          simp [hc'] at hk
          cases hk
          exact ⟨[pprf], rfl⟩
      · have hb' : b = false := by
          cases b
          · rfl
          · exact absurd rfl hb
        subst hb'
        simp only [Bool.false_eq_true, if_false] at hk
        exact ih rest proof branches seen' st' out hk

/--
C6.  Branch selection: `commit_best_branch` leaves the proof untouched and
reports failure on an empty branch list; on a non-empty list it reports
success and installs the sequence of a collected branch whose
`(ip_count, line_count)` is lexicographically minimal among all collected
branches; and the strategy loop of `Prover.prove` — each strategy running
on a fresh copy of the proof — only appends successful branch proofs to the
collected list (in greedy mode it stops at the first success).
-/
theorem strategy_branch_selection :
    (∀ proof : Prf, commit_best_branch proof [] = (false, proof))
    ∧ (∀ (proof : Prf) (branches : List Prf), branches ≠ [] →
        (commit_best_branch proof branches).1 = true
        ∧ ∃ bb ∈ branches,
            (commit_best_branch proof branches).2 = { proof with seq := bb.seq }
            ∧ ∀ q ∈ branches, costLe (pKey bb) (pKey q) = true)
    ∧ (∀ (ctx : Ctx) (fuel : Nat) (idxs : List Nat) (proof : Prf)
          (branches : List Prf) (seen : Seen) (st : St)
          (out : List Prf × Seen × St),
        strategyLoop ctx fuel idxs proof branches seen st = some (.ok out) →
        ∃ extra, out.1 = branches ++ extra) := by
  refine ⟨?_, ?_, ?_⟩
  · intro proof; rfl
  · intro proof branches hne
    match branches with
    | [] => exact absurd rfl hne
    | b :: bs =>
      obtain ⟨hmem, _, hall⟩ := commit_fold_min b bs
      refine ⟨rfl, ?_⟩
      refine ⟨_, ?_, rfl, ?_⟩
      · rcases hmem with h | h
        · rw [h]; exact List.mem_cons_self b bs
        · exact List.mem_cons_of_mem b h
      · intro q hq
        rcases List.mem_cons.mp hq with h9 | hq9
        · obtain ⟨_, hle, _⟩ := commit_fold_min b bs
          rw [h9]
          exact hle
        · exact hall q hq9
  · exact fun ctx => strategyLoop_collects ctx

/-- Witness for C6: a two-branch commit installs the cheaper branch. -/
theorem strategy_branch_selection_witness :
    (commit_best_branch ⟨1, [], .bot⟩
        [⟨2, [.line 3 .bot "X" [], .line 4 .bot "R" []], .bot⟩,
         ⟨5, [.line 6 .bot "X" []], .bot⟩]).1 = true :=
  ((strategy_branch_selection.2.1 ⟨1, [], .bot⟩
      [⟨2, [.line 3 .bot "X" [], .line 4 .bot "R" []], .bot⟩,
       ⟨5, [.line 6 .bot "X" []], .bot⟩]) (by simp)).1

/-- The goal-at-tail property: the sequence ends with a non-assumption line
deriving `g`. -/
def lastEstablishes (g : PObj) (seq : List PO) : Bool :=
  match seq.getLast? with
  | some (.line _ f r _) => f = g && !isAssumptionRule r
  | _ => false

/-- The goal-at-tail property of a proof with respect to its own goal. -/
def lastEstablishesGoal (p : Prf) : Bool :=
  lastEstablishes p.goal p.seq

theorem lastEstablishes_concat (g : PObj) (s : List PO) (i : Nat) (r : String)
    (c : List Nat) (hr : isAssumptionRule r = false) :
    lastEstablishes g (s ++ [.line i g r c]) = true := by
  simp [lastEstablishes, List.getLast?_concat, hr]

/-- A successful `commit_best_branch` installs the sequence of one of the
collected branches. -/
theorem commit_mem {p p' : Prf} {branches : List Prf}
    (h : commit_best_branch p branches = (true, p')) :
    ∃ bb ∈ branches, p' = { p with seq := bb.seq } := by
  match branches with
  | [] => cases h
  | b :: bs =>
    obtain ⟨hmem, -, -⟩ := commit_fold_min b bs
    simp only [commit_best_branch] at h
    cases h
    rcases hmem with h' | h'
    · exact ⟨_, List.mem_cons_self b bs, by rw [h']⟩
    · exact ⟨_, List.mem_cons_of_mem b h', rfl⟩

/-- A failing `commit_best_branch` leaves the proof untouched. -/
theorem commit_false {p p' : Prf} {branches : List Prf}
    (h : commit_best_branch p branches = (false, p')) : p' = p := by
  match branches with
  | [] => cases h; rfl
  | b :: bs => cases h

/-- `commit_best_branch` never changes the goal. -/
theorem commit_goal {p p' : Prf} {branches : List Prf} {b : Bool}
    (h : commit_best_branch p branches = (b, p')) : p'.goal = p.goal := by
  match branches with
  | [] => cases h; rfl
  | q :: qs => cases h; rfl

theorem elimR_spec (proof : Prf) (st : St) :
    ((elimR proof st).2.1.goal = proof.goal)
    ∧ ((elimR proof st).1 = true →
        lastEstablishes proof.goal (elimR proof st).2.1.seq = true) := by
  unfold elimR
  dsimp only
  split
  · next h =>
      refine ⟨rfl, fun _ => ?_⟩
      unfold lastEstablishes
      rcases hlast : proof.seq.getLast? with _ | o
      · rw [hlast] at h
        exact absurd h (by simp)
      · rcases o with ⟨i, f, r, c⟩ | ⟨i, s, g⟩
        · rw [hlast] at h
          simpa using h
        · rw [hlast] at h
          exact absurd h (by simp)
  · split
    · next obj hobj =>
        refine ⟨rfl, fun _ => ?_⟩
        exact lastEstablishes_concat _ _ _ _ _ rfl
    · exact ⟨rfl, by simp⟩

theorem elimX_spec (proof : Prf) (st : St) :
    ((elimX proof st).2.1.goal = proof.goal)
    ∧ ((elimX proof st).1 = true →
        lastEstablishes proof.goal (elimX proof st).2.1.seq = true) := by
  unfold elimX
  split
  · exact ⟨rfl, fun _ => lastEstablishes_concat _ _ _ _ _ rfl⟩
  · exact ⟨rfl, by simp⟩

theorem elimNotE_goal (proof : Prf) (st : St) :
    (elimNotE proof st).2.1.goal = proof.goal := by
  unfold elimNotE
  dsimp only
  split <;> rfl

theorem elimAndE_goal (proof : Prf) (st : St) :
    (elimAndE proof st).2.1.goal = proof.goal := by
  unfold elimAndE
  dsimp only
  split <;> rfl

theorem elimImpE_goal (proof : Prf) (st : St) :
    (elimImpE proof st).2.1.goal = proof.goal := by
  unfold elimImpE
  dsimp only
  split <;> rfl

theorem elimIffE_goal (proof : Prf) (st : St) :
    (elimIffE proof st).2.1.goal = proof.goal := by
  unfold elimIffE
  dsimp only
  split <;> rfl

/-- The elimination sweep preserves the goal and, when it succeeds, leaves
the goal derived on a trailing non-assumption line (it only ends through
`R` or `X`). -/
theorem elimLoop_spec : ∀ (fuel : Nat) (proof : Prf) (st : St)
    (b : Bool) (p' : Prf) (st' : St),
    elimLoop fuel proof st = some (b, p', st') →
    p'.goal = proof.goal
    ∧ (b = true → lastEstablishes proof.goal p'.seq = true) := by
  intro fuel
  induction fuel with
  | zero => intro proof st b p' st' h; simp [elimLoop] at h
  | succ fuel ih =>
    intro proof st b p' st' h
    unfold elimLoop at h
    split at h
    · next p s hR =>
        cases h
        obtain ⟨hg, hl⟩ := elimR_spec proof st
        rw [hR] at hg hl
        exact ⟨hg, fun _ => hl rfl⟩
    · next p1 s1 hR =>
        obtain ⟨hg1, -⟩ := elimR_spec proof st
        rw [hR] at hg1
        split at h
        · next p s hX =>
            cases h
            obtain ⟨hg, hl⟩ := elimX_spec p1 s1
            rw [hX] at hg hl
            rw [hg1] at hg hl
            exact ⟨hg, fun _ => hl rfl⟩
        · next p2 s2 hX =>
            obtain ⟨hg2, -⟩ := elimX_spec p1 s1
            rw [hX] at hg2
            rw [hg1] at hg2
            split at h
            · next p s hN =>
                obtain ⟨hg, hl⟩ := ih _ _ _ _ _ h
                have hgN : p.goal = p2.goal := by
                  have := elimNotE_goal p2 s2
                  rw [hN] at this
                  exact this
                rw [hgN, hg2] at hg hl
                exact ⟨hg, hl⟩
            · next p3 s3 hN =>
                have hg3 : p3.goal = proof.goal := by
                  have := elimNotE_goal p2 s2
                  rw [hN] at this
                  rw [this, hg2]
                split at h
                · next p s hA =>
                    obtain ⟨hg, hl⟩ := ih _ _ _ _ _ h
                    have hgA : p.goal = p3.goal := by
                      have := elimAndE_goal p3 s3
                      rw [hA] at this
                      exact this
                    rw [hgA, hg3] at hg hl
                    exact ⟨hg, hl⟩
                · next p4 s4 hA =>
                    have hg4 : p4.goal = proof.goal := by
                      have := elimAndE_goal p3 s3
                      rw [hA] at this
                      rw [this, hg3]
                    split at h
                    · next p s hI =>
                        obtain ⟨hg, hl⟩ := ih _ _ _ _ _ h
                        have hgI : p.goal = p4.goal := by
                          have := elimImpE_goal p4 s4
                          rw [hI] at this
                          exact this
                        rw [hgI, hg4] at hg hl
                        exact ⟨hg, hl⟩
                    · next p5 s5 hI =>
                        have hg5 : p5.goal = proof.goal := by
                          have := elimImpE_goal p4 s4
                          rw [hI] at this
                          rw [this, hg4]
                        split at h
                        · next p s hF =>
                            obtain ⟨hg, hl⟩ := ih _ _ _ _ _ h
                            have hgF : p.goal = p5.goal := by
                              have := elimIffE_goal p5 s5
                              rw [hF] at this
                              exact this
                            rw [hgF, hg5] at hg hl
                            exact ⟨hg, hl⟩
                        · next p6 s6 hF =>
                            cases h
                            have h9 := elimIffE_goal p5 s5
                            rw [hF] at h9
                            dsimp only at h9
                            rw [h9]
                            exact ⟨hg5, by simp⟩

/-- Result contract of a search-returning function: goal preservation, and
goal-at-tail whenever it reports success. -/
def SearchOk (pin : Prf) (r : Option (TR (Bool × Prf × Seen × St))) : Prop :=
  ∀ b p' s' st', r = some (.ok (b, p', s', st')) →
    p'.goal = pin.goal ∧ (b = true → lastEstablishesGoal p' = true)

/-- Goal preservation only. -/
def GoalPres (pin : Prf) (r : Option (TR (Bool × Prf × Seen × St))) : Prop :=
  ∀ b p' s' st', r = some (.ok (b, p', s', st')) → p'.goal = pin.goal

/-- Result contract of a single branch attempt: a returned branch carries the
target formula on a trailing non-assumption line. -/
def AttemptOk (g : PObj) (r : Option (TR (Option Prf × Seen × St))) : Prop :=
  ∀ ob s' st', r = some (.ok (ob, s', st')) →
    ∀ br, ob = some br → lastEstablishes g br.seq = true

/-- Result contract of a branch-collecting loop. -/
def BranchesOk (g : PObj) (r : Option (TR (List Prf × Seen × St))) : Prop :=
  ∀ out, r = some (.ok out) → ∀ bq ∈ out.1, lastEstablishes g bq.seq = true

theorem lastEstablishesGoal_add (p : Prf) (xs : List PO) (i : Nat) (r : String)
    (c : List Nat) (hr : isAssumptionRule r = false) :
    lastEstablishesGoal (p.add (xs ++ [.line i p.goal r c])) = true := by
  unfold lastEstablishesGoal Prf.add
  dsimp only
  rw [← List.append_assoc]
  exact lastEstablishes_concat _ _ _ _ _ hr

theorem add_goal (p : Prf) (xs : List PO) : (p.add xs).goal = p.goal := rfl

/-- `introNotI` satisfies the search contract: whatever the recursive search
does, success ends with the `¬I` line deriving the goal. -/
theorem introNotI_ok (ctx : Ctx) (fuel : Nat) :
    ∀ inner proof seen st,
      SearchOk proof (introNotI ctx fuel inner proof seen st) := by
  cases fuel with
  | zero => intro inner proof seen st b p' s' st' h; simp [introNotI] at h
  | succ fuel =>
  intro inner proof seen st b p' s' st' h
  unfold introNotI at h
  simp only [mkLine, mkPrf] at h
  split at h
  · cases h
    exact ⟨rfl, fun _ => lastEstablishesGoal_add proof [] _ _ _ rfl⟩
  · obtain ⟨⟨b0, sp', seen0, st0⟩, hrec, hk⟩ := mbind_ok h
    cases b0
    · simp only [Bool.not_false, if_pos rfl] at hk
      cases hk
      exact ⟨rfl, by simp⟩
    · simp only [Bool.not_true, Bool.false_eq_true, if_false] at hk
      cases hk
      exact ⟨rfl, fun _ => lastEstablishesGoal_add proof [_] _ _ _ rfl⟩

/-- `andIAttempt` returns only branches ending in the `∧I` line for the
target. -/
theorem andIAttempt_ok (ctx : Ctx) (fuel : Nat) :
    ∀ c1 c2 g proof seen st,
      AttemptOk g (andIAttempt ctx fuel c1 c2 g proof seen st) := by
  cases fuel with
  | zero => intro c1 c2 g proof seen st ob s' st' h br hbr; simp [andIAttempt] at h
  | succ fuel =>
  intro c1 c2 g proof seen st ob s' st' h br hbr
  unfold andIAttempt at h
  simp only [mkLine, mkPrf] at h
  obtain ⟨⟨b1, br1, seen1, st1⟩, hrec1, hk1⟩ := mbind_ok h
  cases b1
  · simp only [Bool.not_false, if_pos rfl] at hk1
    cases hk1
    cases hbr
  · simp only [Bool.not_true, Bool.false_eq_true, if_false] at hk1
    obtain ⟨⟨b2, br2, seen2, st2⟩, hrec2, hk2⟩ := mbind_ok hk1
    cases b2
    · simp only [Bool.not_false, if_pos rfl] at hk2
      cases hk2
      cases hbr
    · simp only [Bool.not_true, Bool.false_eq_true, if_false] at hk2
      cases hk2
      cases hbr
      exact lastEstablishes_concat _ _ _ _ _ rfl

/-- Committing from a list of good branches yields a good proof. -/
theorem commit_ok_of_branches {proof p' : Prf} {L : List Prf} {b : Bool}
    (hall : ∀ bq ∈ L, lastEstablishes proof.goal bq.seq = true)
    (hcb : commit_best_branch proof L = (b, p')) :
    p'.goal = proof.goal ∧ (b = true → lastEstablishesGoal p' = true) := by
  cases b
  · rw [commit_false hcb]
    exact ⟨rfl, by simp⟩
  · obtain ⟨bb, hmem, rfl⟩ := commit_mem hcb
    exact ⟨rfl, fun _ => hall bb hmem⟩

/-- `introAndI` satisfies the search contract. -/
theorem introAndI_ok (ctx : Ctx) (fuel : Nat) :
    ∀ l r proof seen st, SearchOk proof (introAndI ctx fuel l r proof seen st) := by
  cases fuel with
  | zero => intro l r proof seen st b p' s' st' h; simp [introAndI] at h
  | succ fuel =>
  intro l r proof seen st b p' s' st' h
  unfold introAndI at h
  obtain ⟨⟨o1, seen1, st1⟩, hrec1, hk1⟩ := mbind_ok h
  have hA1 := andIAttempt_ok ctx fuel l r proof.goal proof seen st _ _ _ hrec1
  dsimp only at hk1
  by_cases hc : (o1.isSome && !ctx.complete) = true
  · rw [if_pos hc] at hk1
    rcases hcb : commit_best_branch proof o1.toList with ⟨bb, pp⟩
    rw [hcb] at hk1
    dsimp only at hk1
    cases hk1
    refine commit_ok_of_branches ?_ hcb
    intro bq hbq
    exact hA1 bq (Option.mem_def.mp (Option.mem_toList.mp hbq))
  · rw [if_neg hc] at hk1
    obtain ⟨⟨o2, seen2, st2⟩, hrec2, hk2⟩ := mbind_ok hk1
    have hA2 := andIAttempt_ok ctx fuel r l proof.goal proof seen1 st1 _ _ _ hrec2
    dsimp only at hk2
    rcases hcb : commit_best_branch proof (o1.toList ++ o2.toList) with ⟨bb, pp⟩
    rw [hcb] at hk2
    dsimp only at hk2
    cases hk2
    refine commit_ok_of_branches ?_ hcb
    intro bq hbq
    rcases List.mem_append.mp hbq with hm | hm
    · exact hA1 bq (Option.mem_def.mp (Option.mem_toList.mp hm))
    · exact hA2 bq (Option.mem_def.mp (Option.mem_toList.mp hm))

/-- `orIAttempt` returns only branches ending in the `∨I` line for the
target. -/
theorem orIAttempt_ok (ctx : Ctx) (fuel : Nat) :
    ∀ d g proof seen st, AttemptOk g (orIAttempt ctx fuel d g proof seen st) := by
  cases fuel with
  | zero => intro d g proof seen st ob s' st' h br hbr; simp [orIAttempt] at h
  | succ fuel =>
  intro d g proof seen st ob s' st' h br hbr
  unfold orIAttempt at h
  simp only [mkLine, mkPrf] at h
  split at h
  · obtain ⟨⟨b1, br1, seen1, st1⟩, hrec1, hk1⟩ := mbind_ok h
    cases b1
    · simp only [Bool.not_false, if_pos rfl] at hk1
      cases hk1
      cases hbr
    · simp only [Bool.not_true, Bool.false_eq_true, if_false] at hk1
      cases hk1
      cases hbr
      exact lastEstablishes_concat _ _ _ _ _ rfl
  · cases h
    cases hbr

/-- `introOrI` satisfies the search contract. -/
theorem introOrI_ok (ctx : Ctx) (fuel : Nat) :
    ∀ l r proof seen st, SearchOk proof (introOrI ctx fuel l r proof seen st) := by
  cases fuel with
  | zero => intro l r proof seen st b p' s' st' h; simp [introOrI] at h
  | succ fuel =>
  intro l r proof seen st b p' s' st' h
  unfold introOrI at h
  split at h
  · simp only [mkLine] at h
    cases h
    exact ⟨rfl, fun _ => lastEstablishesGoal_add proof [] _ _ _ rfl⟩
  · obtain ⟨⟨o1, seen1, st1⟩, hrec1, hk1⟩ := mbind_ok h
    have hA1 := orIAttempt_ok ctx fuel l proof.goal proof seen st _ _ _ hrec1
    dsimp only at hk1
    by_cases hc : (o1.isSome && !ctx.complete) = true
    · rw [if_pos hc] at hk1
      rcases hcb : commit_best_branch proof o1.toList with ⟨bb, pp⟩
      rw [hcb] at hk1
      dsimp only at hk1
      cases hk1
      refine commit_ok_of_branches ?_ hcb
      intro bq hbq
      exact hA1 bq (Option.mem_def.mp (Option.mem_toList.mp hbq))
    · rw [if_neg hc] at hk1
      obtain ⟨⟨o2, seen2, st2⟩, hrec2, hk2⟩ := mbind_ok hk1
      have hA2 := orIAttempt_ok ctx fuel r proof.goal proof seen1 st1 _ _ _ hrec2
      dsimp only at hk2
      rcases hcb : commit_best_branch proof (o1.toList ++ o2.toList) with ⟨bb, pp⟩
      rw [hcb] at hk2
      dsimp only at hk2
      cases hk2
      refine commit_ok_of_branches ?_ hcb
      intro bq hbq
      rcases List.mem_append.mp hbq with hm | hm
      · exact hA1 bq (Option.mem_def.mp (Option.mem_toList.mp hm))
      · exact hA2 bq (Option.mem_def.mp (Option.mem_toList.mp hm))

/-- `introImpI` satisfies the search contract. -/
theorem introImpI_ok (ctx : Ctx) (fuel : Nat) :
    ∀ l r proof seen st, SearchOk proof (introImpI ctx fuel l r proof seen st) := by
  cases fuel with
  | zero => intro l r proof seen st b p' s' st' h; simp [introImpI] at h
  | succ fuel =>
  intro l r proof seen st b p' s' st' h
  unfold introImpI at h
  simp only [mkLine, mkPrf] at h
  split at h
  · cases h
    exact ⟨rfl, fun _ => lastEstablishesGoal_add proof [] _ _ _ rfl⟩
  · obtain ⟨⟨b0, sp', seen0, st0⟩, hrec, hk⟩ := mbind_ok h
    cases b0
    · simp only [Bool.not_false, if_pos rfl] at hk
      cases hk
      exact ⟨rfl, by simp⟩
    · simp only [Bool.not_true, Bool.false_eq_true, if_false] at hk
      cases hk
      exact ⟨rfl, fun _ => lastEstablishesGoal_add proof [_] _ _ _ rfl⟩

/-- Appending a block whose last element is a non-assumption line deriving
`g` establishes the goal-at-tail property. -/
theorem lastEstablishes_append_tail (g : PObj) (s t : List PO) (i : Nat)
    (r : String) (c : List Nat) (ht : t.getLast? = some (.line i g r c))
    (hr : isAssumptionRule r = false) :
    lastEstablishes g (s ++ t) = true := by
  unfold lastEstablishes
  rw [List.getLast?_append, ht]
  simp [hr]

/-- `introIffI` satisfies the search contract. -/
theorem introIffI_ok (ctx : Ctx) (fuel : Nat) :
    ∀ l r proof seen st, SearchOk proof (introIffI ctx fuel l r proof seen st) := by
  cases fuel with
  | zero => intro l r proof seen st b p' s' st' h; simp [introIffI] at h
  | succ fuel =>
  intro l r proof seen st b p' s' st' h
  unfold introIffI at h
  simp only [mkLine, mkPrf] at h
  split at h
  · -- first subproof found
    split at h
    · cases h
      refine ⟨rfl, fun _ => ?_⟩
      show lastEstablishes proof.goal (proof.seq ++ _) = true
      exact lastEstablishes_append_tail _ _ _ _ _ _ rfl rfl
    · obtain ⟨⟨b2, sp2', seen2, st2⟩, hrec2, hk2⟩ := mbind_ok h
      cases b2
      · simp only [Bool.not_false, if_pos rfl] at hk2
        cases hk2
        exact ⟨rfl, by simp⟩
      · simp only [Bool.not_true, Bool.false_eq_true, if_false] at hk2
        cases hk2
        refine ⟨rfl, fun _ => ?_⟩
        show lastEstablishes proof.goal (proof.seq ++ _) = true
        exact lastEstablishes_append_tail _ _ _ _ _ _ rfl rfl
  · obtain ⟨⟨b1, sp1', seen1, st1⟩, hrec1, hk1⟩ := mbind_ok h
    cases b1
    · simp only [Bool.not_false, if_pos rfl] at hk1
      cases hk1
      exact ⟨rfl, by simp⟩
    · simp only [Bool.not_true, Bool.false_eq_true, if_false] at hk1
      split at hk1
      · cases hk1
        refine ⟨rfl, fun _ => ?_⟩
        show lastEstablishes proof.goal (proof.seq ++ _) = true
        exact lastEstablishes_append_tail _ _ _ _ _ _ rfl rfl
      · obtain ⟨⟨b2, sp2', seen2, st2⟩, hrec2, hk2⟩ := mbind_ok hk1
        cases b2
        · simp only [Bool.not_false, if_pos rfl] at hk2
          cases hk2
          exact ⟨rfl, by simp⟩
        · simp only [Bool.not_true, Bool.false_eq_true, if_false] at hk2
          cases hk2
          refine ⟨rfl, fun _ => ?_⟩
          show lastEstablishes proof.goal (proof.seq ++ _) = true
          exact lastEstablishes_append_tail _ _ _ _ _ _ rfl rfl

/-- `introIP` satisfies the search contract. -/
theorem introIP_ok (ctx : Ctx) (fuel : Nat) :
    ∀ proof seen st, SearchOk proof (introIP ctx fuel proof seen st) := by
  cases fuel with
  | zero => intro proof seen st b p' s' st' h; simp [introIP] at h
  | succ fuel =>
  intro proof seen st b p' s' st' h
  unfold introIP at h
  simp only [mkLine, mkPrf] at h
  split at h
  · cases h
    exact ⟨rfl, by simp⟩
  · split at h
    · cases h
      exact ⟨rfl, fun _ => lastEstablishesGoal_add proof [] _ _ _ rfl⟩
    · obtain ⟨⟨b0, sp', seen0, st0⟩, hrec, hk⟩ := mbind_ok h
      cases b0
      · simp only [Bool.not_false, if_pos rfl] at hk
        cases hk
        exact ⟨rfl, by simp⟩
      · simp only [Bool.not_true, Bool.false_eq_true, if_false] at hk
        cases hk
        exact ⟨rfl, fun _ => lastEstablishesGoal_add proof [_] _ _ _ rfl⟩

/-- `Introducer.intro` satisfies the search contract. -/
theorem introDispatch_ok (ctx : Ctx) (fuel : Nat) :
    ∀ proof seen st, SearchOk proof (introDispatch ctx fuel proof seen st) := by
  cases fuel with
  | zero => intro proof seen st b p' s' st' h; simp [introDispatch] at h
  | succ fuel =>
  intro proof seen st b p' s' st' h
  unfold introDispatch at h
  split at h
  · exact introNotI_ok ctx fuel _ proof seen st _ _ _ _ h
  · exact introAndI_ok ctx fuel _ _ proof seen st _ _ _ _ h
  · exact introOrI_ok ctx fuel _ _ proof seen st _ _ _ _ h
  · exact introImpI_ok ctx fuel _ _ proof seen st _ _ _ _ h
  · exact introIffI_ok ctx fuel _ _ proof seen st _ _ _ _ h
  all_goals (cases h; exact ⟨rfl, by simp⟩)

/-- `NotE_force` preserves the goal. -/
theorem notEforce_goalpres (ctx : Ctx) (fuel : Nat) :
    ∀ proof seen st, GoalPres proof (notEforce ctx fuel proof seen st) := by
  cases fuel with
  | zero => intro proof seen st b p' s' st' h; simp [notEforce] at h
  | succ fuel =>
  intro proof seen st b p' s' st' h
  unfold notEforce at h
  split at h
  · cases h; rfl
  · obtain ⟨⟨branches, seen1, st1⟩, hrec, hk⟩ := mbind_ok h
    dsimp only at hk
    rcases hcb : commit_best_branch proof branches with ⟨bb, pp⟩
    rw [hcb] at hk
    dsimp only at hk
    cases hk
    exact commit_goal hcb

/-- `ImpE_force` preserves the goal. -/
theorem impEforceGo_goalpres (ctx : Ctx) : ∀ (fuel : Nat) (proof : Prf)
    (scan : List PO) (seen : Seen) (st : St),
    GoalPres proof (impEforceGo ctx fuel proof scan seen st) := by
  intro fuel
  induction fuel with
  | zero => intro proof scan seen st b p' s' st' h; simp [impEforceGo] at h
  | succ fuel ih =>
  intro proof scan seen st b p' s' st' h
  unfold impEforceGo at h
  split at h
  · cases h; rfl
  · split at h
    · split at h
      · exact ih proof _ seen st _ _ _ _ h
      · split at h
        · simp only [mkPrf] at h
          obtain ⟨⟨b0, br0, seen0, st0⟩, hrec, hk⟩ := mbind_ok h
          cases b0
          · simp only [Bool.false_eq_true, if_false] at hk
            exact ih proof _ seen0 st0 _ _ _ _ hk
          · simp only [if_true] at hk
            split at hk
            · cases hk; rfl
            · exact ih proof _ seen0 st0 _ _ _ _ hk
        · exact ih proof _ seen st _ _ _ _ h
    · exact ih proof _ seen st _ _ _ _ h

/-- `IffE_force` preserves the goal. -/
theorem iffEforceGo_goalpres (ctx : Ctx) : ∀ (fuel : Nat) (proof : Prf)
    (scan : List PO) (seen : Seen) (st : St),
    GoalPres proof (iffEforceGo ctx fuel proof scan seen st) := by
  intro fuel
  induction fuel with
  | zero => intro proof scan seen st b p' s' st' h; simp [iffEforceGo] at h
  | succ fuel ih =>
  intro proof scan seen st b p' s' st' h
  unfold iffEforceGo at h
  split at h
  · cases h; rfl
  · split at h
    · split at h
      · exact ih proof _ seen st _ _ _ _ h
      · split at h
        · exact ih proof _ seen st _ _ _ _ h
        · simp only [mkPrf] at h
          obtain ⟨⟨bL, brL, seenL, stL⟩, hrecL, hkL⟩ := mbind_ok h
          simp only [] at hkL
          cases bL
          · simp only [Bool.false_eq_true, if_false, Option.isSome_none,
              Bool.false_and, Option.toList_none, List.nil_append] at hkL
            obtain ⟨⟨bR, brR, seenR, stR⟩, hrecR, hkR⟩ := mbind_ok hkL
            simp only [] at hkR
            rcases hcb : commit_best_branch proof
                ((if bR = true then
                    if (!poSeqEqB (popReiteration brR).2.seq proof.seq) = true
                    then some (popReiteration brR).2 else none
                  else none).toList) with ⟨bb, pp⟩
            simp only [hcb] at hkR
            cases bb
            · exact ih proof _ seen stR _ _ _ _ hkR
            · cases hkR
              exact commit_goal hcb
          · simp only [if_true] at hkL
            by_cases hq :
                (!poSeqEqB (popReiteration brL).2.seq proof.seq) = true
            · simp only [hq, if_true, Option.isSome_some, Bool.true_and] at hkL
              cases hcpl : ctx.complete
              · simp only [hcpl, Bool.not_false, if_true] at hkL
                rcases hcb : commit_best_branch proof
                    (some (popReiteration brL).2).toList with ⟨bb, pp⟩
                simp only [hcb] at hkL
                cases bb
                · exact ih proof _ seen stL _ _ _ _ hkL
                · cases hkL
                  exact commit_goal hcb
              · simp only [hcpl, Bool.not_true, Bool.false_eq_true, if_false]
                  at hkL
                obtain ⟨⟨bR, brR, seenR, stR⟩, hrecR, hkR⟩ := mbind_ok hkL
                simp only [] at hkR
                rcases hcb : commit_best_branch proof
                    ((some (popReiteration brL).2).toList ++
                      (if bR = true then
                          if (!poSeqEqB (popReiteration brR).2.seq proof.seq)
                              = true
                          then some (popReiteration brR).2 else none
                        else none).toList) with ⟨bb, pp⟩
                simp only [hcb] at hkR
                cases bb
                · exact ih proof _ seen stR _ _ _ _ hkR
                · cases hkR
                  exact commit_goal hcb
            · simp only [hq, Bool.false_eq_true, if_false, Option.isSome_none,
                Bool.false_and, Option.toList_none, List.nil_append] at hkL
              obtain ⟨⟨bR, brR, seenR, stR⟩, hrecR, hkR⟩ := mbind_ok hkL
              simp only [] at hkR
              rcases hcb : commit_best_branch proof
                  ((if bR = true then
                      if (!poSeqEqB (popReiteration brR).2.seq proof.seq) = true
                      then some (popReiteration brR).2 else none
                    else none).toList) with ⟨bb, pp⟩
              simp only [hcb] at hkR
              cases bb
              · exact ih proof _ seen stR _ _ _ _ hkR
              · cases hkR
                exact commit_goal hcb
    · exact ih proof _ seen st _ _ _ _ h

theorem branches_snoc_ok {g : PObj} {branches : List Prf} {br : Prf}
    (hbr : ∀ bq ∈ branches, lastEstablishes g bq.seq = true)
    (hb : lastEstablishes g br.seq = true) :
    ∀ bq ∈ branches ++ [br], lastEstablishes g bq.seq = true := by
  intro bq hbq
  rcases List.mem_append.mp hbq with hm | hm
  · exact hbr bq hm
  · rw [List.mem_singleton.mp hm]
    exact hb

/-- The `∨E` scan only collects branches ending in the `∨E` line deriving
the goal. -/
theorem orEGo_ok (ctx : Ctx) : ∀ (fuel : Nat) (proof : Prf) (scan : List PO)
    (branches : List Prf) (seen : Seen) (st : St),
    (∀ bq ∈ branches, lastEstablishes proof.goal bq.seq = true) →
    BranchesOk proof.goal (orEGo ctx fuel proof scan branches seen st) := by
  intro fuel
  induction fuel with
  | zero =>
    intro proof scan branches seen st hbr out h bq hbq
    simp [orEGo] at h
  | succ fuel ih =>
  intro proof scan branches seen st hbr out h bq hbq
  unfold orEGo at h
  split at h
  · cases h
    exact hbr bq hbq
  · split at h
    case _ oid d1 d2 rule cits =>
      simp only [mkLine, mkPrf] at h
      split at h
      · -- first disjunct subproof found
        split at h
        · -- second found: immediate finish
          by_cases hc : ctx.complete = true
          · simp only [hc, Bool.not_true, Bool.false_eq_true, if_false] at h
            refine ih proof _ (branches ++ [_]) seen _ ?_ out h bq hbq
            refine branches_snoc_ok hbr (lastEstablishes_concat _ _ _ _ _ ?_)
            rfl
          · simp only [Bool.eq_false_iff.mpr hc, Bool.not_false, if_true] at h
            cases h
            refine branches_snoc_ok hbr
              (lastEstablishes_concat _ _ _ _ _ ?_) bq hbq
            rfl
        · -- second built by recursion
          obtain ⟨⟨b2, sp2', seen2, st2⟩, hrec2, hk2⟩ := mbind_ok h
          simp only [] at hk2
          cases b2
          · simp only [Bool.not_false, if_pos rfl] at hk2
            exact ih proof _ branches seen _ hbr out hk2 bq hbq
          · simp only [Bool.not_true, Bool.false_eq_true, if_false] at hk2
            by_cases hc : ctx.complete = true
            · simp only [hc, Bool.not_true, Bool.false_eq_true, if_false] at hk2
              refine ih proof _ (branches ++ [_]) seen _ ?_ out hk2 bq hbq
              refine branches_snoc_ok hbr (lastEstablishes_concat _ _ _ _ _ ?_)
              rfl
            · simp only [Bool.eq_false_iff.mpr hc, Bool.not_false, if_true]
                at hk2
              cases hk2
              refine branches_snoc_ok hbr
                (lastEstablishes_concat _ _ _ _ _ ?_) bq hbq
              rfl
      · -- first built by recursion
        obtain ⟨⟨b1, sp1', seen1, st1⟩, hrec1, hk1⟩ := mbind_ok h
        simp only [] at hk1
        cases b1
        · simp only [Bool.not_false, if_pos rfl] at hk1
          exact ih proof _ branches seen1 _ hbr out hk1 bq hbq
        · simp only [Bool.not_true, Bool.false_eq_true, if_false] at hk1
          split at hk1
          · by_cases hc : ctx.complete = true
            · simp only [hc, Bool.not_true, Bool.false_eq_true, if_false] at hk1
              refine ih proof _ (branches ++ [_]) seen1 _ ?_ out hk1 bq hbq
              refine branches_snoc_ok hbr (lastEstablishes_concat _ _ _ _ _ ?_)
              rfl
            · simp only [Bool.eq_false_iff.mpr hc, Bool.not_false, if_true]
                at hk1
              cases hk1
              refine branches_snoc_ok hbr
                (lastEstablishes_concat _ _ _ _ _ ?_) bq hbq
              rfl
          · obtain ⟨⟨b2, sp2', seen2, st2⟩, hrec2, hk2⟩ := mbind_ok hk1
            simp only [] at hk2
            cases b2
            · simp only [Bool.not_false, if_pos rfl] at hk2
              exact ih proof _ branches seen1 _ hbr out hk2 bq hbq
            · simp only [Bool.not_true, Bool.false_eq_true, if_false] at hk2
              by_cases hc : ctx.complete = true
              · simp only [hc, Bool.not_true, Bool.false_eq_true, if_false]
                  at hk2
                refine ih proof _ (branches ++ [_]) seen1 _ ?_ out hk2 bq hbq
                refine branches_snoc_ok hbr
                  (lastEstablishes_concat _ _ _ _ _ ?_)
                rfl
              · simp only [Bool.eq_false_iff.mpr hc, Bool.not_false, if_true]
                  at hk2
                cases hk2
                refine branches_snoc_ok hbr
                  (lastEstablishes_concat _ _ _ _ _ ?_) bq hbq
                rfl
    all_goals exact ih proof _ branches seen st hbr out h bq hbq

/-- `Eliminator.OrE` satisfies the search contract. -/
theorem orE_ok (ctx : Ctx) (fuel : Nat) :
    ∀ proof seen st, SearchOk proof (orE ctx fuel proof seen st) := by
  cases fuel with
  | zero => intro proof seen st b p' s' st' h; simp [orE] at h
  | succ fuel =>
  intro proof seen st b p' s' st' h
  unfold orE at h
  obtain ⟨⟨branches, seen1, st1⟩, hrec, hk⟩ := mbind_ok h
  have hbr := orEGo_ok ctx fuel proof proof.seq [] seen st (by simp) _ hrec
  dsimp only at hk
  rcases hcb : commit_best_branch proof branches with ⟨bb, pp⟩
  rw [hcb] at hk
  dsimp only at hk
  cases hk
  exact commit_ok_of_branches (fun bq hbq => hbr bq hbq) hcb

/-- The search contract through the whole mutual recursion, by strong
induction on fuel: every `.ok` result of `Prover.prove` (and of a single
strategy) preserves the goal, and a `True` result ends the sequence with a
non-assumption line deriving the goal; the strategy loop only collects
branches with that property. -/
theorem searchContract : ∀ (fuel : Nat),
    (∀ (ctx : Ctx) (proof : Prf) (seen : Seen) (st : St),
      SearchOk proof (proverProve ctx fuel proof seen st))
    ∧ (∀ (ctx : Ctx) (i : Nat) (pprf : Prf) (seen : Seen) (st : St),
      SearchOk pprf (runStrategy ctx fuel i pprf seen st))
    ∧ (∀ (ctx : Ctx) (idxs : List Nat) (proof : Prf) (branches : List Prf)
        (seen : Seen) (st : St),
      (∀ bq ∈ branches, lastEstablishes proof.goal bq.seq = true) →
      BranchesOk proof.goal
        (strategyLoop ctx fuel idxs proof branches seen st)) := by
  intro fuel
  induction fuel with
  | zero =>
      refine ⟨?_, ?_, ?_⟩
      · intro ctx proof seen st b p' s' st' h; simp [proverProve] at h
      · intro ctx i pprf seen st b p' s' st' h; simp [runStrategy] at h
      · intro ctx idxs proof branches seen st _ out h; simp [strategyLoop] at h
  | succ fuel ih =>
      obtain ⟨ihP, ihR, ihL⟩ := ih
      refine ⟨?_, ?_, ?_⟩
      · -- proverProve
        intro ctx proof seen st b p' s' st' h
        unfold proverProve at h
        rcases hdl : deadlineHit ctx st with ⟨hit, st0⟩
        rw [hdl] at h
        simp only [] at h
        cases hit
        · simp only [Bool.false_eq_true, if_false] at h
          rcases hes : enter_state proof seen with ⟨ok, seen0⟩
          rw [hes] at h
          simp only [] at h
          cases ok
          · simp only [Bool.not_false, if_pos rfl] at h
            cases h
            exact ⟨rfl, by simp⟩
          · simp only [Bool.not_true, Bool.false_eq_true, if_false] at h
            rcases hel : elimLoop fuel proof st0 with _ | ⟨be, pe, ste⟩
            · rw [hel] at h; exact absurd h (by simp)
            · rw [hel] at h
              obtain ⟨hge, hle⟩ := elimLoop_spec fuel proof st0 be pe ste hel
              cases be
              · simp only [] at h
                obtain ⟨⟨bi, pi, si, sti⟩, hreci, hki⟩ := mbind_ok h
                obtain ⟨hgi, hli⟩ :=
                  introDispatch_ok ctx fuel pe seen0 ste _ _ _ _ hreci
                simp only [] at hki
                cases bi
                · simp only [Bool.false_eq_true, if_false] at hki
                  obtain ⟨⟨branches, s2, st2⟩, hrecs, hks⟩ := mbind_ok hki
                  have hall :=
                    ihL ctx [1, 2, 3, 4, 5] pi [] si sti (by simp) _ hrecs
                  simp only [] at hks
                  rcases hcb : commit_best_branch pi branches with ⟨bb, pp⟩
                  rw [hcb] at hks
                  simp only [] at hks
                  cases hks
                  obtain ⟨hgc, hlc⟩ :=
                    commit_ok_of_branches (fun bq hbq => hall bq hbq) hcb
                  exact ⟨hgc.trans (hgi.trans hge), hlc⟩
                · simp only [if_pos rfl] at hki
                  cases hki
                  exact ⟨hgi.trans hge, fun _ => by
                    unfold lastEstablishesGoal
                    exact hli rfl⟩
              · simp only [] at h
                cases h
                refine ⟨hge, fun _ => ?_⟩
                unfold lastEstablishesGoal
                rw [hge]
                exact hle rfl
        · simp only [if_pos rfl] at h
          exact absurd h (by simp)
      · -- runStrategy
        intro ctx i pprf seen st b p' s' st' h
        unfold runStrategy at h
        split at h
        · obtain ⟨⟨b0, pp0, s0, st0⟩, hrec, hk⟩ := mbind_ok h
          have hg0 := notEforce_goalpres ctx fuel pprf seen st _ _ _ _ hrec
          simp only [] at hk
          cases b0
          · simp only [Bool.false_eq_true, if_false] at hk
            cases hk
            exact ⟨hg0, by simp⟩
          · simp only [if_pos rfl] at hk
            obtain ⟨hg1, hl1⟩ := ihP ctx pp0 s0 st0 _ _ _ _ hk
            exact ⟨hg1.trans hg0, hl1⟩
        · obtain ⟨⟨b0, pp0, s0, st0⟩, hrec, hk⟩ := mbind_ok h
          have hg0 := impEforceGo_goalpres ctx fuel pprf pprf.seq seen st
            _ _ _ _ hrec
          simp only [] at hk
          cases b0
          · simp only [Bool.false_eq_true, if_false] at hk
            cases hk
            exact ⟨hg0, by simp⟩
          · simp only [if_pos rfl] at hk
            obtain ⟨hg1, hl1⟩ := ihP ctx pp0 s0 st0 _ _ _ _ hk
            exact ⟨hg1.trans hg0, hl1⟩
        · obtain ⟨⟨b0, pp0, s0, st0⟩, hrec, hk⟩ := mbind_ok h
          have hg0 := iffEforceGo_goalpres ctx fuel pprf pprf.seq seen st
            _ _ _ _ hrec
          simp only [] at hk
          cases b0
          · simp only [Bool.false_eq_true, if_false] at hk
            cases hk
            exact ⟨hg0, by simp⟩
          · simp only [if_pos rfl] at hk
            obtain ⟨hg1, hl1⟩ := ihP ctx pp0 s0 st0 _ _ _ _ hk
            exact ⟨hg1.trans hg0, hl1⟩
        · exact orE_ok ctx fuel pprf seen st _ _ _ _ h
        · exact introIP_ok ctx fuel pprf seen st _ _ _ _ h
      · -- strategyLoop
        intro ctx idxs proof branches seen st hall out h
        unfold strategyLoop at h
        split at h
        · cases h
          exact hall
        · simp only [mkPrf] at h
          obtain ⟨⟨b0, pp0, s0, st0⟩, hrec, hk⟩ := mbind_ok h
          obtain ⟨hg0, hl0⟩ := ihR ctx _ _ _ _ _ _ _ _ hrec
          simp only [] at hk
          cases b0
          · simp only [Bool.false_eq_true, if_false] at hk
            exact ihL ctx _ proof branches s0 st0 hall out hk
          · simp only [if_pos rfl] at hk
            have hsn : lastEstablishes proof.goal pp0.seq = true := by
              have := hl0 rfl
              unfold lastEstablishesGoal at this
              rw [hg0] at this
              exact this
            cases hcpl : ctx.complete
            · simp only [hcpl, Bool.not_false, if_pos rfl] at hk
              cases hk
              exact branches_snoc_ok hall hsn
            · simp only [hcpl, Bool.not_true, Bool.false_eq_true, if_false]
                at hk
              exact ihL ctx _ proof (branches ++ [pp0]) s0 st0
                (branches_snoc_ok hall hsn) out hk

/-- **C9.** Whenever `Prover.prove` returns `True`, the last element of the
returned proof's sequence is a non-assumption line whose formula equals the
proof's goal (the goal of the input proof); consequently
`_Proof.pop_reiteration` returns the id of a line establishing the goal: the
head citation of a trailing `"R"` reiteration (which it removes), and the
last line's own id otherwise. -/
theorem prover_goal_at_tail (ctx : Ctx) (fuel : Nat) (proof : Prf)
    (seen : Seen) (st : St) (p' : Prf) (s' : Seen) (st' : St)
    (h : proverProve ctx fuel proof seen st = some (.ok (true, p', s', st'))) :
    (∃ i r c, p'.seq.getLast? = some (.line i p'.goal r c)
        ∧ isAssumptionRule r = false)
    ∧ p'.goal = proof.goal
    ∧ (∀ i r c, p'.seq.getLast? = some (.line i p'.goal r c) →
        popReiteration p' =
          if r = "R" then (c.headD 0, { p' with seq := p'.seq.dropLast })
          else (i, p')) := by
  obtain ⟨hg, hl⟩ := (searchContract fuel).1 ctx proof seen st _ _ _ _ h
  have hle := hl rfl
  unfold lastEstablishesGoal lastEstablishes at hle
  refine ⟨?_, hg, ?_⟩
  · rcases hget : p'.seq.getLast? with _ | o
    · rw [hget] at hle
      exact absurd hle (by simp)
    · rcases o with ⟨i, f, r, c⟩ | ⟨i, s, g⟩
      · rw [hget] at hle
        simp only [Bool.and_eq_true, Bool.not_eq_true', decide_eq_true_eq]
          at hle
        obtain ⟨hf, hr⟩ := hle
        refine ⟨i, r, c, ?_, hr⟩
        rw [hf]
      · rw [hget] at hle
        exact absurd hle (by simp)
  · intro i r c hget
    unfold popReiteration
    rw [hget]

theorem prover_goal_at_tail_witness :
    ∃ p' s' st',
      proverProve ⟨fun _ => 0, none, false⟩ 2
          ⟨1, [.line 2 .bot "X" []], .bot⟩ [] ⟨2, 0⟩
        = some (.ok (true, p', s', st'))
      ∧ ((∃ i r c, p'.seq.getLast? = some (.line i p'.goal r c)
            ∧ isAssumptionRule r = false)
        ∧ p'.goal = PObj.bot
        ∧ (∀ i r c, p'.seq.getLast? = some (.line i p'.goal r c) →
            popReiteration p' =
              if r = "R" then (c.headD 0, { p' with seq := p'.seq.dropLast })
              else (i, p'))) :=
  ⟨_, _, _, rfl,
    prover_goal_at_tail ⟨fun _ => 0, none, false⟩ 2
      ⟨1, [.line 2 .bot "X" []], .bot⟩ [] ⟨2, 0⟩ _ _ _ rfl⟩

/-! ## Post-processing (`Processor`, `prover.py`) -/

/-- A citation value in the post-processed world: a plain line number, or
the `(first, last)` tuple that `Processor.translate` produces for a
subproof citation. -/
inductive Idx where
  | num (n : Nat)
  | range (m n : Nat)
  deriving DecidableEq, Repr

mutual
/-- Modelled from the spec: the proof objects `Processor` runs on, unified
over its input (`_Line`/`_Proof` of `prover.py`, whose citations are plain
ids) and its output (the `Line`/`Proof` classes of the absent `checker.py`,
per spec section 3: `Line{id, formula, justification{rule, citations}}` and
`Subproof{id, sequence}`; `translate` passes the running line number as the
`Line`'s id and converts citations to numbers and ranges).  The
justification's rule object is identified with its rule name, and the
`context` stored on checker `Proof`s and the `goal` of `_Proof`s are
omitted: no `Processor` pass reads them. -/
inductive CO where
  | line (id : Nat) (formula : PObj) (rule : String) (citations : List Idx)
  | sub (id : Nat) (seq : COL)
  deriving DecidableEq, Repr

inductive COL where
  | nil
  | cons (o : CO) (rest : COL)
  deriving DecidableEq, Repr
end

mutual
/-- Embed a prover `_ProofObject` into the unified post-processing world
(citations become `Idx.num`; the `_Proof` goal is dropped, see `CO`). -/
def poToCO : PO → CO
  | .line i f r cs => .line i f r (cs.map .num)
  | .sub i s _ => .sub i (posToCOL s)

def posToCOL : List PO → COL
  | [] => .nil
  | o :: rest => .cons (poToCO o) (posToCOL rest)
end

/-- Number of top-level elements of a sequence (`len(proof.seq)`). -/
def colLength : COL → Nat
  | .nil => 0
  | .cons _ rest => colLength rest + 1

/-- Whether a sequence is empty (used for the `idx == n - 1` test: an
element is last exactly when the rest is empty). -/
def colIsNil : COL → Bool
  | .nil => true
  | .cons _ _ => false

/-- The citer map `id → set of citer ids` (`_Proof.id_to_citers`), as an
association list keyed by citation values.  In the prover world all keys
are `Idx.num id`. -/
def CitMap : Type := List (Idx × List Nat)

/-- `citers = id_to_citers.setdefault(c, set()); citers.add(obj.id)`. -/
def addCiter : CitMap → Idx → Nat → CitMap
  | [], k, i => [(k, [i])]
  | (k', v) :: m, k, i =>
      if k' = k then (k', v ++ [i]) :: m else (k', v) :: addCiter m k i

/-- `citers = id_to_citers.setdefault(k, set()); citers.update(v)`. -/
def addCiters : CitMap → Idx → List Nat → CitMap
  | [], k, v => [(k, v)]
  | (k', v') :: m, k, v =>
      if k' = k then (k', v' ++ v) :: m else (k', v') :: addCiters m k v

/-- Merging a subproof's citer map into the enclosing one
(`for k, v in obj.id_to_citers().items(): ...update(v)`). -/
def mergeCiters (m inner : CitMap) : CitMap :=
  inner.foldl (fun acc e => addCiters acc e.1 e.2) m

/-- `id_to_citers[obj.id] = set()` — an overwriting assignment. -/
def setEmptyCiters : CitMap → Idx → CitMap
  | [], k => [(k, [])]
  | (k', v) :: m, k =>
      if k' = k then (k', []) :: m else (k', v) :: setEmptyCiters m k

/-- Lookup in the citer map; every id of the traversed tree has an entry,
so the empty default only covers the impossible missing-key case. -/
def citersOf (m : CitMap) (k : Idx) : List Nat :=
  match m.find? (fun e => decide (e.1 = k)) with
  | some e => e.2
  | none => []

mutual
/-- One object's contribution to `_Proof.id_to_citers` (the loop body). -/
def coCitersInto : CO → CitMap → CitMap
  | .line i _ _ cits, m =>
      setEmptyCiters (cits.foldl (fun acc c => addCiter acc c i) m) (.num i)
  | .sub i s, m => setEmptyCiters (mergeCiters m (colCiters s [])) (.num i)

/-- `_Proof.id_to_citers` over a sequence, threading the accumulator. -/
def colCiters : COL → CitMap → CitMap
  | .nil, m => m
  | .cons o rest, m => colCiters rest (coCitersInto o m)
end

/-- The rule-name map distilled from `_Proof.id_to_obj` (only `.rule` of a
looked-up object is ever read, and only lines are registered). -/
def RMap : Type := List (Nat × String)

/-- `id_to_obj[obj.id] = obj` — an overwriting assignment. -/
def setRule : RMap → Nat → String → RMap
  | [], i, r => [(i, r)]
  | (i', r') :: m, i, r =>
      if i' = i then (i', r) :: m else (i', r') :: setRule m i r

/-- Rule of the registered line with the given id. -/
def lookupRule (m : RMap) (i : Nat) : Option String :=
  (m.find? (fun e => decide (e.1 = i))).map (fun e => e.2)

mutual
/-- One object's contribution to `_Proof.id_to_obj`. -/
def coRules : CO → RMap → RMap
  | .line i _ r _, m => setRule m i r
  | .sub _ s, m => colRules s m

/-- `_Proof.id_to_obj` over a sequence (rule names only). -/
def colRules : COL → RMap → RMap
  | .nil, m => m
  | .cons o rest, m => colRules rest (coRules o m)
end

mutual
/-- `line_count` of a unified proof object. -/
def coLineCount : CO → Nat
  | .line .. => 1
  | .sub _ s => colLineCount s

def colLineCount : COL → Nat
  | .nil => 0
  | .cons o rest => coLineCount o + colLineCount rest
end

mutual
/-- The `while True` loop of `Processor.remove_uncited`: run one filtering
pass; stop when the top-level length is unchanged, otherwise recompute the
citer map from the pruned proof and repeat.  Fuel bounds the iteration
(`none` = cut off). -/
def ruLoop : Nat → CitMap → COL → Option COL
  | 0, _, _ => none
  | fuel + 1, cit, seq =>
      match ruPass fuel cit seq with
      | none => none
      | some seq' =>
          if colLength seq' = colLength seq then some seq'
          else ruLoop fuel (colCiters seq' []) seq'

/-- One `for idx, obj in enumerate(proof.seq)` pass of `remove_uncited`:
subproofs are pruned recursively (to their own fixpoint, with the current
citer map) and always kept; lines are kept when they are assumptions, last,
or cited. -/
def ruPass : Nat → CitMap → COL → Option COL
  | 0, _, _ => none
  | fuel + 1, cit, seq =>
      match seq with
      | .nil => some .nil
      | .cons o rest =>
          match o with
          | .sub i s =>
              match ruLoop fuel cit s with
              | none => none
              | some s' => (ruPass fuel cit rest).map (.cons (.sub i s'))
          | .line i _ r _ =>
              if isAssumptionRule r || colIsNil rest then
                (ruPass fuel cit rest).map (.cons o)
              else if !(citersOf cit (.num i)).isEmpty then
                (ruPass fuel cit rest).map (.cons o)
              else ruPass fuel cit rest
end

/-- The `replace` dict of `Processor.replace_reiterations`: pending
replacements, keyed by the id of the reiteration line to replace. -/
def RepMap : Type := List (Nat × CO)

/-- `replace[c] = obj` (overwrite). -/
def setRep : RepMap → Nat → CO → RepMap
  | [], c, o => [(c, o)]
  | (c', o') :: m, c, o =>
      if c' = c then (c', o) :: m else (c', o') :: setRep m c o

/-- `replace.get(obj.id)`. -/
def getRep (m : RepMap) (i : Nat) : Option CO :=
  (m.find? (fun e => decide (e.1 = i))).map (fun e => e.2)

/-- `_Line.copy()`: same formula, rule and citations, fresh id from the
global `_ProofObject.count` counter. -/
def copyLine : CO → Nat → CO × Nat
  | .line _ f r cs, ctr => (.line (ctr + 1) f r cs, ctr + 1)
  | o, ctr => (o, ctr)

mutual
/-- One object of `Processor.replace_reiterations` (`isLast` is the
`idx == n - 1` test of the enclosing sequence): a subproof recurses sharing
the `replace` dict; a line is first replaced by a pending copy, else kept
when an assumption or last, else kept unless every citer is a reiteration
`R`, in which case it is dropped and scheduled to replace each citer.
`none` in the result means the object produced no output element. -/
def rrCo (rules : RMap) (cit : CitMap) :
    CO → Bool → RepMap → Nat → Option CO × RepMap × Nat
  | .sub i s, _, repl, ctr =>
      let (s', repl', ctr') := rrCol rules cit s repl ctr
      (some (.sub i s'), repl', ctr')
  | .line i f r cs, isLast, repl, ctr =>
      match getRep repl i with
      | some l =>
          let (l', ctr') := copyLine l ctr
          (some l', repl, ctr')
      | none =>
          if isAssumptionRule r || isLast then (some (.line i f r cs), repl, ctr)
          else
            let citers := citersOf cit (.num i)
            if !citers.all (fun c => (lookupRule rules c).getD "" = "R") then
              (some (.line i f r cs), repl, ctr)
            else
              (none, citers.foldl (fun acc c => setRep acc c (.line i f r cs))
                repl, ctr)

/-- `Processor.replace_reiterations` over a sequence. -/
def rrCol (rules : RMap) (cit : CitMap) :
    COL → RepMap → Nat → COL × RepMap × Nat
  | .nil, repl, ctr => (.nil, repl, ctr)
  | .cons o rest, repl, ctr =>
      match rrCo rules cit o (colIsNil rest) repl ctr with
      | (some o', repl', ctr') =>
          let (rest', repl2, ctr2) := rrCol rules cit rest repl' ctr'
          (.cons o' rest', repl2, ctr2)
      | (none, repl', ctr') => rrCol rules cit rest repl' ctr'
end

/-- The `id_to_idx` dict of `Processor.translate`, keyed by construction
ids. -/
def IMap : Type := List (Nat × Idx)

/-- `id_to_idx[obj.id] = ...` (overwrite). -/
def setIdx : IMap → Nat → Idx → IMap
  | [], i, v => [(i, v)]
  | (i', v') :: m, i, v =>
      if i' = i then (i', v) :: m else (i', v') :: setIdx m i v

/-- `id_to_idx[c]` for a citation value `c`: only plain ids are ever
registered as keys, so looking up a range citation (as a second
`process` run would) raises `KeyError`, modelled as `none`. -/
def lookupIdx (m : IMap) : Idx → Option Idx
  | .num k => (m.find? (fun e => decide (e.1 = k))).map (fun e => e.2)
  | .range _ _ => none

/-- `tuple(id_to_idx[c] for c in obj.citations)`. -/
def lookupCits (m : IMap) : List Idx → Option (List Idx)
  | [] => some []
  | c :: rest =>
      match lookupIdx m c, lookupCits m rest with
      | some v, some vs => some (v :: vs)
      | _, _ => none

mutual
/-- One object of `Processor.translate`: a line is renumbered (its rule is
looked up in the rule catalog, modelled as the name itself) and its
citations mapped through `id_to_idx`; a subproof is translated recursively
and registered under the `(first, last)` range.  Modelled from the spec:
the produced checker `Line` carries the running number as its id, and the
produced checker `Proof` gets a fresh global construction id.  `.error`
models the `KeyError` of an unregistered citation. -/
def trCo : CO → Nat → IMap → Nat → Except Unit (CO × Nat × IMap × Nat)
  | .line i f r cs, idx, mp, ctr =>
      match lookupCits mp cs with
      | none => .error ()
      | some cs' =>
          .ok (.line idx f r cs', idx + 1, setIdx mp i (.num idx), ctr)
  | .sub i s, idx, mp, ctr =>
      match trCol s idx mp ctr with
      | .error e => .error e
      | .ok (s', _, mp', ctr') =>
          let newIdx := idx + colLineCount s
          .ok (.sub (ctr' + 1) s', newIdx,
            setIdx mp' i (.range idx (newIdx - 1)), ctr' + 1)

/-- `Processor.translate` over a sequence, threading the running number,
the `id_to_idx` dict and the construction counter. -/
def trCol : COL → Nat → IMap → Nat → Except Unit (COL × Nat × IMap × Nat)
  | .nil, idx, mp, ctr => .ok (.nil, idx, mp, ctr)
  | .cons o rest, idx, mp, ctr =>
      match trCo o idx mp ctr with
      | .error e => .error e
      | .ok (o', idx', mp', ctr') =>
          match trCol rest idx' mp' ctr' with
          | .error e => .error e
          | .ok (rest', idx2, mp2, ctr2) => .ok (.cons o' rest', idx2, mp2, ctr2)
end

/-- `Processor.process`: prune uncited lines to a fixpoint, collapse
reiterations (with the object and citer maps computed once from the pruned
proof), then renumber from 1; the result is a fresh checker `Proof` holding
the translated sequence.  `none` = out of fuel, `.error` = a `KeyError`
during renumbering (a second run on translated output hits it on any range
citation). -/
def process (fuel : Nat) (p : CO) (ctr : Nat) : Option (Except Unit (CO × Nat)) :=
  match p with
  | .line .. => some (.error ())
  | .sub _ seq =>
      match ruLoop fuel (colCiters seq []) seq with
      | none => none
      | some seq1 =>
          let rules := colRules seq1 []
          let cit1 := colCiters seq1 []
          let (seq2, _, ctr2) := rrCol rules cit1 seq1 [] ctr
          match trCol seq2 1 [] ctr2 with
          | .error e => some (.error e)
          | .ok (seq3, _, _, ctr3) => some (.ok (.sub (ctr3 + 1) seq3, ctr3 + 1))

/-- Flat, contiguously numbered from `n`: every element is a line, ids run
`n, n+1, ...`, and citations are plain numbers below the citing line (the
shape `translate` gives subproof-free output). -/
def flatNumbered : Nat → COL → Bool
  | _, .nil => true
  | n, .cons (.line i _ _ cits) rest =>
      decide (i = n) &&
      cits.all (fun c => match c with
        | .num k => decide (1 ≤ k) && decide (k < n)
        | .range _ _ => false) &&
      flatNumbered (n + 1) rest
  | _, .cons (.sub ..) _ => false

/-- Every element is a line that the pruning and collapsing passes keep: an
assumption, the last line, or a line with a citer that is not a
reiteration `R` (as certified by the given citer and rule maps). -/
def wellKept (cit : CitMap) (rules : RMap) : COL → Bool
  | .nil => true
  | .cons (.line i _ r _) rest =>
      (isAssumptionRule r || colIsNil rest ||
        (!(citersOf cit (.num i)).isEmpty &&
         !(citersOf cit (.num i)).all
            (fun c => (lookupRule rules c).getD "" = "R"))) &&
      wellKept cit rules rest
  | .cons (.sub ..) _ => false

/-- A pass of `remove_uncited` keeps a well-kept sequence unchanged. -/
theorem ruPass_id : ∀ (fuel : Nat) (seq : COL) (cit : CitMap) (rules : RMap),
    colLength seq < fuel → wellKept cit rules seq = true →
    ruPass fuel cit seq = some seq := by
  intro fuel
  induction fuel with
  | zero => intro seq cit rules hf _; omega
  | succ fuel ih =>
      intro seq cit rules hf hk
      match seq, hk with
      | .nil, _ => rfl
      | .cons (.line i f r cs) rest, hk =>
          simp only [wellKept, Bool.and_eq_true] at hk
          obtain ⟨hc, hrest⟩ := hk
          have hrec := ih rest cit rules (by
            simp only [colLength] at hf; omega) hrest
          show (if (isAssumptionRule r || colIsNil rest) = true then
              Option.map (COL.cons (CO.line i f r cs)) (ruPass fuel cit rest)
            else if (!(citersOf cit (Idx.num i)).isEmpty) = true then
              Option.map (COL.cons (CO.line i f r cs)) (ruPass fuel cit rest)
            else ruPass fuel cit rest) = _
          by_cases ha : (isAssumptionRule r || colIsNil rest) = true
          · rw [if_pos ha, hrec]; rfl
          · rw [if_neg ha]
            rw [Bool.or_eq_true, Bool.or_eq_true] at hc
            rcases hc with (hc | hc) | hc
            · exact absurd (by simp [hc] :
                (isAssumptionRule r || colIsNil rest) = true) ha
            · exact absurd (by simp [hc] :
                (isAssumptionRule r || colIsNil rest) = true) ha
            · rw [Bool.and_eq_true] at hc
              rw [if_pos hc.1, hrec]
              rfl

/-- `remove_uncited` keeps a well-kept sequence unchanged: the first pass
changes nothing, so the loop stops. -/
theorem ruLoop_id (fuel : Nat) (seq : COL) (cit : CitMap) (rules : RMap)
    (hf : colLength seq + 1 < fuel) (hk : wellKept cit rules seq = true) :
    ruLoop fuel cit seq = some seq := by
  match fuel, hf with
  | fuel + 1, hf =>
  unfold ruLoop
  rw [ruPass_id fuel seq cit rules (by omega) hk]
  simp

/-- `replace_reiterations` keeps a well-kept sequence unchanged and
schedules no replacement (stated with a length bound to drive the
induction). -/
theorem rrCol_id : ∀ (fuel : Nat) (seq : COL) (cit : CitMap) (rules : RMap)
    (ctr : Nat), colLength seq < fuel → wellKept cit rules seq = true →
    rrCol rules cit seq [] ctr = (seq, [], ctr) := by
  intro fuel
  induction fuel with
  | zero => intro seq cit rules ctr hf _; omega
  | succ fuel ih =>
      intro seq cit rules ctr hf hk
      match seq, hk with
      | .nil, _ => rfl
      | .cons (.line i f r cs) rest, hk =>
          simp only [wellKept, Bool.and_eq_true] at hk
          obtain ⟨hc, hrest⟩ := hk
          have hrec := ih rest cit rules ctr (by
            simp only [colLength] at hf; omega) hrest
          have hco : rrCo rules cit (.line i f r cs) (colIsNil rest) [] ctr
              = (some (.line i f r cs), [], ctr) := by
            show (if (isAssumptionRule r || colIsNil rest) = true then
                ((some (.line i f r cs) : Option CO), ([] : RepMap), ctr)
              else if (!(citersOf cit (Idx.num i)).all
                  (fun c => (lookupRule rules c).getD "" = "R")) = true then
                (some (.line i f r cs), [], ctr)
              else (none, (citersOf cit (Idx.num i)).foldl
                (fun acc c => setRep acc c (.line i f r cs)) [], ctr)) = _
            by_cases ha : (isAssumptionRule r || colIsNil rest) = true
            · rw [if_pos ha]
            · rw [if_neg ha]
              rw [Bool.or_eq_true, Bool.or_eq_true] at hc
              rcases hc with (hc | hc) | hc
              · exact absurd (by simp [hc] :
                  (isAssumptionRule r || colIsNil rest) = true) ha
              · exact absurd (by simp [hc] :
                  (isAssumptionRule r || colIsNil rest) = true) ha
              · rw [Bool.and_eq_true] at hc
                rw [if_pos hc.2]
          show (match rrCo rules cit (.line i f r cs) (colIsNil rest) [] ctr with
            | (some o2, repl2, ctr2) =>
                let p := rrCol rules cit rest repl2 ctr2
                (COL.cons o2 p.1, p.2.1, p.2.2)
            | (none, repl2, ctr2) => rrCol rules cit rest repl2 ctr2) = _
          rw [hco]
          simp only [hrec]

/-- Unfolding `id_to_idx` lookup on a cons cell. -/
theorem lookupIdx_cons (a : Nat) (b : Idx) (m : IMap) (k : Nat) :
    lookupIdx ((a, b) :: m) (.num k)
      = if a = k then some b else lookupIdx m (.num k) := by
  by_cases h : a = k
  · simp [lookupIdx, List.find?_cons_of_pos, h]
  · simp [lookupIdx, List.find?_cons_of_neg, h]

/-- Lookup after an overwriting `id_to_idx` assignment. -/
theorem lookupIdx_setIdx : ∀ (mp : IMap) (i : Nat) (v : Idx) (k : Nat),
    lookupIdx (setIdx mp i v) (.num k)
      = if k = i then some v else lookupIdx mp (.num k) := by
  intro mp i v k
  induction mp with
  | nil =>
      show lookupIdx [(i, v)] (.num k) = _
      rw [lookupIdx_cons]
      rcases eq_or_ne k i with hk | hk
      · rw [if_pos hk.symm, if_pos hk]
      · rw [if_neg (Ne.symm hk), if_neg hk]
  | cons e mp ih =>
      obtain ⟨a, b⟩ := e
      simp only [setIdx]
      rcases eq_or_ne a i with hai | hai
      · subst hai
        rw [if_pos rfl]
        rcases eq_or_ne k a with hk | hk
        · subst hk
          rw [lookupIdx_cons, if_pos rfl, if_pos rfl]
        · rw [lookupIdx_cons, if_neg (Ne.symm hk), if_neg hk, lookupIdx_cons,
            if_neg (Ne.symm hk)]
      · rw [if_neg hai]
        rcases eq_or_ne k a with hk | hk
        · subst hk
          have hki : ¬ k = i := hai
          rw [lookupIdx_cons, if_pos rfl, if_neg hki, lookupIdx_cons,
            if_pos rfl]
        · rw [lookupIdx_cons, if_neg (Ne.symm hk), ih]
          rcases eq_or_ne k i with hki | hki
          · rw [if_pos hki, if_pos hki]
          · rw [if_neg hki, if_neg hki, lookupIdx_cons, if_neg (Ne.symm hk)]

/-- On flat, already-renumbered citations the `id_to_idx` lookup is the
identity. -/
theorem lookupCits_id : ∀ (cs : List Idx) (mp : IMap) (n : Nat),
    (cs.all (fun c => match c with
      | .num k => decide (1 ≤ k) && decide (k < n)
      | .range _ _ => false)) = true →
    (∀ k, 1 ≤ k → k < n → lookupIdx mp (.num k) = some (.num k)) →
    lookupCits mp cs = some cs := by
  intro cs
  induction cs with
  | nil => intro mp n _ _; rfl
  | cons c rest ih =>
      intro mp n hall hmp
      rw [List.all_cons, Bool.and_eq_true] at hall
      obtain ⟨hc, hrest⟩ := hall
      match c, hc with
      | .num k, hc =>
          rw [Bool.and_eq_true, decide_eq_true_eq, decide_eq_true_eq] at hc
          show (match lookupIdx mp (.num k), lookupCits mp rest with
            | some v, some vs => some (v :: vs)
            | _, _ => none) = _
          rw [hmp k hc.1 hc.2, ih mp n hrest hmp]

/-- `translate` is the identity renumbering on a flat sequence already
contiguously numbered from `n` (with the `id_to_idx` accumulator the
identity below `n`). -/
theorem trCol_flat : ∀ (fuel : Nat) (seq : COL) (n : Nat) (mp : IMap)
    (ctr : Nat), colLength seq < fuel →
    flatNumbered n seq = true →
    (∀ k, 1 ≤ k → k < n → lookupIdx mp (.num k) = some (.num k)) →
    ∃ mp2, trCol seq n mp ctr = .ok (seq, n + colLength seq, mp2, ctr)
      ∧ (∀ k, 1 ≤ k → k < n + colLength seq →
          lookupIdx mp2 (.num k) = some (.num k)) := by
  intro fuel
  induction fuel with
  | zero => intro seq n mp ctr hf _ _; omega
  | succ fuel ih =>
      intro seq n mp ctr hf hnum hmp
      match seq, hnum with
      | .nil, _ => exact ⟨mp, rfl, hmp⟩
      | .cons (.sub i s) rest, hnum => simp [flatNumbered] at hnum
      | .cons (.line i f r cs) rest, hnum =>
          simp only [flatNumbered, Bool.and_eq_true] at hnum
          obtain ⟨⟨hi, hcits⟩, hrest⟩ := hnum
          rw [decide_eq_true_eq] at hi
          subst hi
          have hmp1 : ∀ k, 1 ≤ k → k < i + 1 →
              lookupIdx (setIdx mp i (.num i)) (.num k) = some (.num k) := by
            intro k h1 h2
            rw [lookupIdx_setIdx]
            rcases eq_or_ne k i with hk | hk
            · rw [if_pos hk, hk]
            · exact (if_neg hk).trans (hmp k h1 (by omega))
          obtain ⟨mp2, htr, hmp2⟩ := ih rest (i + 1) (setIdx mp i (.num i)) ctr
            (by simp only [colLength] at hf; omega) hrest hmp1
          refine ⟨mp2, ?_, ?_⟩
          · show (match trCo (.line i f r cs) i mp ctr with
              | .error e => Except.error e
              | .ok (o2, idx2, mp2, ctr2) =>
                  match trCol rest idx2 mp2 ctr2 with
                  | .error e => Except.error e
                  | .ok (rest2, idx3, mp3, ctr3) =>
                      Except.ok (COL.cons o2 rest2, idx3, mp3, ctr3)) = _
            have hco : trCo (.line i f r cs) i mp ctr
                = .ok (.line i f r cs, i + 1, setIdx mp i (.num i), ctr) := by
              show (match lookupCits mp cs with
                | none => Except.error ()
                | some cs2 =>
                    Except.ok (CO.line i f r cs2, i + 1,
                      setIdx mp i (.num i), ctr)) = _
              rw [lookupCits_id cs mp i hcits hmp]
            rw [hco]
            simp only []
            rw [htr]
            simp only []
            have harith : i + colLength (COL.cons (CO.line i f r cs) rest)
                = i + 1 + colLength rest := by
              simp only [colLength]; omega
            rw [harith]
          · intro k h1 h2
            refine hmp2 k h1 ?_
            simp only [colLength] at h2
            omega

/-- **C7** (counterexample).  The claim "for every proof produced by
`Processor.process`, running `Processor.process` again on that output
yields a structurally identical proof" fails at an explicit input: for the
prover proof `[11. [12. ⊥ AS; 13. ⊥ R 12] ; 14. ⊥→⊥ →I 11]` the first run
succeeds (inner lines renumbered 1–2, the `→I` line citing the range
`(1, 2)`), but the second run raises `KeyError` during renumbering — the
range citation is not a registered id — so it yields no proof at all, let
alone an identical one. -/
theorem process_not_idempotent :
    process 30 (poToCO (Prf.toPO
        ⟨10, [PO.sub 11 [PO.line 12 .bot "AS" [], PO.line 13 .bot "R" [12]]
                .bot,
              PO.line 14 (.imp .bot .bot) "→I" [11]], .imp .bot .bot⟩)) 14
      = some (.ok (CO.sub 16 (.cons
          (CO.sub 15 (.cons (.line 1 .bot "AS" [])
            (.cons (.line 2 .bot "R" [.num 1]) .nil)))
          (.cons (.line 3 (.imp .bot .bot) "→I" [.range 1 2]) .nil)), 16))
    ∧ process 30 (CO.sub 16 (.cons
          (CO.sub 15 (.cons (.line 1 .bot "AS" [])
            (.cons (.line 2 .bot "R" [.num 1]) .nil)))
          (.cons (.line 3 (.imp .bot .bot) "→I" [.range 1 2]) .nil))) 16
      = some (.error ()) :=
  ⟨rfl, rfl⟩

/-- **C7** (amended).  `Processor.process` is idempotent on subproof-free
output: on a flat sequence contiguously numbered from 1 whose citations
are plain earlier numbers (the shape `translate` produces) and whose every
line is an assumption, the last line, or cited by at least one
non-reiteration line, a second run returns the structurally identical
sequence under a fresh root `Proof` object.  (With subproofs a second run
instead raises `KeyError` on the range citations.) -/
theorem process_flat_idempotent (seq : COL) (j ctr fuel : Nat)
    (hfuel : colLength seq + 1 < fuel)
    (hnum : flatNumbered 1 seq = true)
    (hkept : wellKept (colCiters seq []) (colRules seq []) seq = true) :
    process fuel (.sub j seq) ctr
      = some (.ok (.sub (ctr + 1) seq, ctr + 1)) := by
  unfold process
  simp only []
  rw [ruLoop_id fuel seq (colCiters seq []) (colRules seq []) hfuel hkept]
  simp only []
  rw [rrCol_id (colLength seq + 1) seq (colCiters seq []) (colRules seq [])
    ctr (by omega) hkept]
  simp only []
  obtain ⟨mp2, htr, -⟩ := trCol_flat (colLength seq + 1) seq 1 [] ctr
    (by omega) hnum
    (fun k h1 h2 => absurd (Nat.lt_of_lt_of_le h2 h1) (Nat.lt_irrefl k))
  rw [htr]

theorem process_flat_idempotent_witness :
    colLength (COL.cons (CO.line 1 .bot "PR" [])
        (.cons (.line 2 .bot "∧E" [.num 1])
          (.cons (.line 3 .bot "X" [.num 2]) .nil))) + 1 < 9
    ∧ flatNumbered 1 (COL.cons (CO.line 1 .bot "PR" [])
        (.cons (.line 2 .bot "∧E" [.num 1])
          (.cons (.line 3 .bot "X" [.num 2]) .nil))) = true
    ∧ process 9 (.sub 7 (COL.cons (CO.line 1 .bot "PR" [])
        (.cons (.line 2 .bot "∧E" [.num 1])
          (.cons (.line 3 .bot "X" [.num 2]) .nil)))) 20
      = some (.ok (.sub 21 (COL.cons (CO.line 1 .bot "PR" [])
        (.cons (.line 2 .bot "∧E" [.num 1])
          (.cons (.line 3 .bot "X" [.num 2]) .nil))), 21)) :=
  ⟨by decide, by decide,
    process_flat_idempotent _ 7 20 9 (by decide) (by decide) (by decide)⟩
